import Mathlib

/-!
Verification of the hard-mode Wordle strategy toolkit
(`analysis.py`, `simulate.py`, `improved_strategy.py`, `strategy_v2.py`,
`final_simulation.py`).

Words are Python strings of lowercase letters, modelled as `List Char`.
Feedback patterns are Python 5-tuples of ints (0 = gray, 1 = yellow,
2 = green), modelled as `List Nat` of length 5.

The source indexes `guess[i]` / `target[i]` for `i < 5`; every word the
programs handle has exactly five letters, so the embedding uses `List.getD`
with an arbitrary default character (`' '`), and theorems that depend on
positional indexing carry explicit length-5 hypotheses.

Floating-point arithmetic in the source (`math.log2`, float division) is
modelled exactly: rational quantities (`expected_remaining`, heuristic
scores) live in `ℚ`, and the Shannon-entropy value `expected_information`
lives in `ℝ`.  Entropy *comparisons* between guesses over one fixed
candidate list are implemented with the exact integer key
`∏ |bucket| ^ |bucket|` (smaller key = larger entropy), which is proved
order-equivalent to the real entropy below, so that all selection logic
stays computable.
-/

namespace WordleSolve

abbrev Word := List Char

abbrev Feedback := List Nat

/-- The all-green pattern `(2, 2, 2, 2, 2)`. -/
def allGreen : Feedback := [2, 2, 2, 2, 2]

/-! ## Feedback Engine (`analysis.compute_feedback`) -/

/-- Pass 1 of `compute_feedback`: the `result` array after the green pass,
`result[i] = 2` exactly when `guess[i] == target[i]`, else `0`. -/
def greenResult (guess target : Word) : List Nat :=
  (List.range 5).map fun i =>
    if guess.getD i ' ' = target.getD i ' ' then 2 else 0

/-- Pass 1 of `compute_feedback`: the `target_remaining` working list, with
green-consumed positions set to `None`. -/
def greenRemaining (guess target : Word) : List (Option Char) :=
  (List.range 5).map fun i =>
    if guess.getD i ' ' = target.getD i ' ' then none
    else some (target.getD i ' ')

/-- `target_remaining[target_remaining.index(c)] = None`: blank the first
remaining occurrence of `c`. -/
def consumeFirst : List (Option Char) → Char → List (Option Char)
  | [], _ => []
  | x :: xs, c => if x = some c then none :: xs else x :: consumeFirst xs c

/-- One iteration of pass 2 of `compute_feedback` at position `i`:
skip greens, otherwise mark yellow and consume if `guess[i]` is still
available in the working list. -/
def yellowStep (guess : Word) (st : List Nat × List (Option Char)) (i : Nat) :
    List Nat × List (Option Char) :=
  if st.1.getD i 0 = 2 then st
  else if some (guess.getD i ' ') ∈ st.2 then
    (st.1.set i 1, consumeFirst st.2 (guess.getD i ' '))
  else st

/-- `analysis.compute_feedback`: two-pass duplicate-letter-aware Wordle
feedback, greens first, then yellows consuming a working multiset of the
target's unmatched letters. -/
def compute_feedback (guess target : Word) : Feedback :=
  ((List.range 5).foldl (yellowStep guess)
    (greenResult guess target, greenRemaining guess target)).1

/-! ## Partitioner (`analysis.partition_by_feedback`) -/

/-- Append `w` to the bucket keyed `fb`, creating the bucket at the end if
the key is new (Python `dict` of lists, insertion-ordered). -/
def addToBucket : List (Feedback × List Word) → Feedback → Word →
    List (Feedback × List Word)
  | [], fb, w => [(fb, [w])]
  | (k, b) :: rest, fb, w =>
    if k = fb then (k, b ++ [w]) :: rest else (k, b) :: addToBucket rest fb w

/-- `analysis.partition_by_feedback`: group candidates by the feedback
pattern they would produce against `guess`. -/
def partition_by_feedback (guess : Word) (candidates : List Word) :
    List (Feedback × List Word) :=
  candidates.foldl (fun bs t => addToBucket bs (compute_feedback guess t) t) []

/-! ## Constraint Filter (`analysis.filter_candidates`) -/

/-- `analysis.filter_candidates`: keep the words consistent with an observed
(guess, feedback) pair, preserving order. -/
def filter_candidates (candidates : List Word) (guess : Word) (fb : Feedback) :
    List Word :=
  candidates.filter fun w => compute_feedback guess w = fb

/-! ## Counting helpers and feedback-engine lemmas (claim C1) -/

/-- Number of positions whose guess letter is `c` and which are marked
Present (1) or Correct (2) in the result list `res`. -/
def hitCount (c : Char) (guess : Word) (res : List Nat) : Nat :=
  (List.range 5).countP fun i =>
    decide (guess.getD i ' ' = c ∧ (res.getD i 0 = 1 ∨ res.getD i 0 = 2))

theorem count_eq_countP_range {α : Type _} [DecidableEq α] (l : List α) (c d : α) :
    l.count c = (List.range l.length).countP (fun i => decide (l.getD i d = c)) := by
  induction l with
  | nil => simp
  | cons x xs ih =>
    rw [List.length_cons, List.range_succ_eq_map, List.countP_cons, List.countP_map]
    simp only [Function.comp_def, List.getD_cons_succ, List.getD_cons_zero, List.count_cons]
    rw [← ih]
    by_cases h : x = c <;> simp [h]

theorem countP_decide_and_split (l : List Nat) (p q : Nat → Prop)
    [DecidablePred p] [DecidablePred q] :
    l.countP (fun a => decide (p a ∧ q a)) + l.countP (fun a => decide (p a ∧ ¬ q a)) =
      l.countP (fun a => decide (p a)) := by
  induction l with
  | nil => simp
  | cons x xs ih =>
    by_cases hp : p x <;> by_cases hq : q x
    · rw [List.countP_cons_of_pos _ _ (by simp [hp, hq]),
        List.countP_cons_of_neg _ _ (by simp [hp, hq]),
        List.countP_cons_of_pos _ _ (by simp [hp])]
      omega
    · rw [List.countP_cons_of_neg _ _ (by simp [hp, hq]),
        List.countP_cons_of_pos _ _ (by simp [hp, hq]),
        List.countP_cons_of_pos _ _ (by simp [hp])]
      omega
    · rw [List.countP_cons_of_neg _ _ (by simp [hp]),
        List.countP_cons_of_neg _ _ (by simp [hp]),
        List.countP_cons_of_neg _ _ (by simp [hp])]
      omega
    · rw [List.countP_cons_of_neg _ _ (by simp [hp]),
        List.countP_cons_of_neg _ _ (by simp [hp]),
        List.countP_cons_of_neg _ _ (by simp [hp])]
      omega

theorem countP_le_succ_of_agree_off {l : List Nat} (hnd : l.Nodup) (p q : Nat → Bool)
    (i : Nat) (h : ∀ j ∈ l, j ≠ i → p j = q j) : l.countP p ≤ l.countP q + 1 := by
  induction l with
  | nil => simp
  | cons x xs ih =>
    have hx : x ∉ xs := (List.nodup_cons.mp hnd).1
    have hxs : xs.Nodup := (List.nodup_cons.mp hnd).2
    by_cases hxi : x = i
    · subst hxi
      have hcongr : xs.countP p = xs.countP q := by
        apply List.countP_congr
        intro j hj
        rw [h j (List.mem_cons_of_mem _ hj) (fun hji => hx (hji ▸ hj))]
      simp only [List.countP_cons, hcongr]
      by_cases hp : p x <;> by_cases hq : q x <;> simp [hp, hq] <;> omega
    · have hpq : p x = q x := h x (List.mem_cons_self _ _) hxi
      have := ih hxs (fun j hj hji => h j (List.mem_cons_of_mem _ hj) hji)
      simp only [List.countP_cons, hpq]
      omega

theorem consumeFirst_count_self (l : List (Option Char)) (c : Char) (h : some c ∈ l) :
    (consumeFirst l c).count (some c) + 1 = l.count (some c) := by
  induction l with
  | nil => simp at h
  | cons x xs ih =>
    by_cases hx : x = some c
    · subst hx
      simp [consumeFirst, List.count_cons]
    · have hmem : some c ∈ xs := by
        rcases List.mem_cons.mp h with h' | h'
        · exact absurd h'.symm hx
        · exact h'
      simp only [consumeFirst, if_neg hx, List.count_cons]
      have := ih hmem
      omega

theorem consumeFirst_count_ne (l : List (Option Char)) (c c' : Char) (h : c' ≠ c) :
    (consumeFirst l c).count (some c') = l.count (some c') := by
  induction l with
  | nil => rfl
  | cons x xs ih =>
    by_cases hx : x = some c
    · subst hx
      simp [consumeFirst, List.count_cons, h]
    · simp [consumeFirst, hx, List.count_cons, ih]

theorem greenResult_length (g t : Word) : (greenResult g t).length = 5 := by
  simp [greenResult]

theorem greenResult_getD (g t : Word) {i : Nat} (h : i < 5) :
    (greenResult g t).getD i 0 = if g.getD i ' ' = t.getD i ' ' then 2 else 0 := by
  rw [greenResult, List.getD_eq_getElem?_getD, List.getElem?_map, List.getElem?_range h]
  rfl

theorem greenRemaining_count (g t : Word) (c : Char) :
    (greenRemaining g t).count (some c) =
      (List.range 5).countP
        (fun i => decide (t.getD i ' ' = c ∧ ¬ g.getD i ' ' = t.getD i ' ')) := by
  rw [greenRemaining, List.count_eq_countP, List.countP_map]
  apply List.countP_congr
  intro i _
  simp only [Function.comp_apply]
  by_cases he : g.getD i ' ' = t.getD i ' '
  · rw [if_pos he]
    simp only [List.getD_eq_getElem?_getD] at he
    simp [he]
  · rw [if_neg he]
    simp only [beq_iff_eq, Option.some.injEq, decide_eq_true_eq]
    exact ⟨fun h => ⟨h, he⟩, fun h => h.1⟩

theorem hitCount_greenResult (g t : Word) (c : Char) :
    hitCount c g (greenResult g t) =
      (List.range 5).countP
        (fun i => decide (t.getD i ' ' = c ∧ g.getD i ' ' = t.getD i ' ')) := by
  unfold hitCount
  apply List.countP_congr
  intro i hi
  have h5 : i < 5 := List.mem_range.mp hi
  rw [greenResult_getD _ _ h5]
  by_cases he : g.getD i ' ' = t.getD i ' '
  · rw [if_pos he]
    simp only [decide_eq_true_eq]
    constructor
    · rintro ⟨h1, _⟩
      refine ⟨?_, he⟩
      rw [← he]
      exact h1
    · rintro ⟨h1, _⟩
      refine ⟨?_, by norm_num⟩
      rw [he]
      exact h1
  · rw [if_neg he]
    simp only [decide_eq_true_eq]
    constructor
    · rintro ⟨_, h2⟩
      rcases h2 with h2 | h2 <;> omega
    · rintro ⟨_, h2⟩
      exact absurd h2 he

theorem hitCount_set_le (c : Char) (g : Word) (res : List Nat) (i : Nat) :
    hitCount c g (res.set i 1) ≤ hitCount c g res + 1 := by
  unfold hitCount
  apply countP_le_succ_of_agree_off (List.nodup_range 5) _ _ i
  intro j _ hij
  have hset : (res.set i 1).getD j 0 = res.getD j 0 := by
    rw [List.getD_eq_getElem?_getD, List.getD_eq_getElem?_getD,
      List.getElem?_set_ne (Ne.symm hij)]
  rw [hset]

theorem hitCount_set_ne (c : Char) (g : Word) (res : List Nat) (i : Nat)
    (hne : ¬ g.getD i ' ' = c) :
    hitCount c g (res.set i 1) ≤ hitCount c g res := by
  unfold hitCount
  apply List.countP_mono_left
  intro j _ hp
  by_cases hij : j = i
  · subst hij
    exact absurd (of_decide_eq_true hp).1 hne
  · have hset : (res.set i 1).getD j 0 = res.getD j 0 := by
      rw [List.getD_eq_getElem?_getD, List.getD_eq_getElem?_getD,
        List.getElem?_set_ne (Ne.symm hij)]
    rw [hset] at hp
    exact hp

/-- Pass-2 invariant for the duplicate-letter bound: for every letter `c`,
positions already marked with guess letter `c` plus the remaining
occurrences of `c` in the working list never exceed the multiplicity of `c`
in the target. -/
def HitInv (g t : Word) (st : List Nat × List (Option Char)) : Prop :=
  ∀ c : Char, hitCount c g st.1 + st.2.count (some c) ≤ t.count c

theorem yellowStep_hitInv (g t : Word) (st : List Nat × List (Option Char)) (i : Nat)
    (h : HitInv g t st) : HitInv g t (yellowStep g st i) := by
  unfold yellowStep
  split
  · exact h
  · split
    case isTrue hmem =>
      intro c
      by_cases hc : g.getD i ' ' = c
      · have h1 := consumeFirst_count_self st.2 (g.getD i ' ') hmem
        have h2 := hitCount_set_le c g st.1 i
        have h3 := h c
        rw [hc] at h1 ⊢
        simp only at h1 ⊢
        omega
      · have h1 := consumeFirst_count_ne st.2 (g.getD i ' ') c
          (fun hcc => hc hcc.symm)
        have h2 := hitCount_set_ne c g st.1 i hc
        have h3 := h c
        simp only at h1 ⊢
        omega
    · exact h

theorem foldl_yellowStep_hitInv (g t : Word) (l : List Nat)
    (st : List Nat × List (Option Char)) (h : HitInv g t st) :
    HitInv g t (l.foldl (yellowStep g) st) := by
  induction l generalizing st with
  | nil => exact h
  | cons x xs ih => exact ih _ (yellowStep_hitInv g t st x h)

theorem hitInv_init (g t : Word) (ht : t.length = 5) :
    HitInv g t (greenResult g t, greenRemaining g t) := by
  intro c
  simp only
  rw [hitCount_greenResult, greenRemaining_count]
  have hsplit := countP_decide_and_split (List.range 5)
    (fun i => t.getD i ' ' = c) (fun i => g.getD i ' ' = t.getD i ' ')
  have hcnt : t.count c = (List.range 5).countP (fun i => decide (t.getD i ' ' = c)) := by
    have h0 := count_eq_countP_range t c ' '
    rw [ht] at h0
    exact h0
  omega

/-- Pass-2 invariant for green positions: entry `i` equals 2 exactly when
the guess and target agree at position `i`; the result list keeps length 5. -/
def GreenInv (g t : Word) (res : List Nat) : Prop :=
  res.length = 5 ∧
    ∀ i : Nat, i < 5 → (res.getD i 0 = 2 ↔ g.getD i ' ' = t.getD i ' ')

theorem yellowStep_greenInv (g t : Word) (st : List Nat × List (Option Char)) (i : Nat)
    (h : GreenInv g t st.1) : GreenInv g t (yellowStep g st i).1 := by
  obtain ⟨hlen, hiff⟩ := h
  unfold yellowStep
  split
  · exact ⟨hlen, hiff⟩
  case isFalse hne2 =>
    split
    · refine ⟨by simpa using hlen, fun j hj => ?_⟩
      by_cases hij : j = i
      · subst hij
        have hjlen : j < st.1.length := by rw [hlen]; exact hj
        have hv : (st.1.set j 1).getD j 0 = 1 := by
          rw [List.getD_eq_getElem?_getD, List.getElem?_set_eq hjlen]
          rfl
        simp only [hv]
        constructor
        · intro h12; omega
        · intro heq
          exact absurd ((hiff j hj).mpr heq) hne2
      · have hset : (st.1.set i 1).getD j 0 = st.1.getD j 0 := by
          rw [List.getD_eq_getElem?_getD, List.getD_eq_getElem?_getD,
            List.getElem?_set_ne (Ne.symm hij)]
        rw [hset]
        exact hiff j hj
    · exact ⟨hlen, hiff⟩

theorem foldl_yellowStep_greenInv (g t : Word) (l : List Nat)
    (st : List Nat × List (Option Char)) (h : GreenInv g t st.1) :
    GreenInv g t (l.foldl (yellowStep g) st).1 := by
  induction l generalizing st with
  | nil => exact h
  | cons x xs ih => exact ih _ (yellowStep_greenInv g t st x h)

theorem greenInv_init (g t : Word) : GreenInv g t (greenResult g t) := by
  refine ⟨greenResult_length g t, fun i hi => ?_⟩
  rw [greenResult_getD _ _ hi]
  by_cases h : g.getD i ' ' = t.getD i ' '
  · rw [if_pos h]
    exact ⟨fun _ => h, fun _ => rfl⟩
  · rw [if_neg h]
    exact ⟨fun h02 => absurd h02 (by norm_num), fun hgt => absurd hgt h⟩

theorem compute_feedback_green_iff (g t : Word) :
    ∀ i : Nat, i < 5 →
      ((compute_feedback g t).getD i 0 = 2 ↔ g.getD i ' ' = t.getD i ' ') :=
  (foldl_yellowStep_greenInv g t (List.range 5) _ (greenInv_init g t)).2

theorem compute_feedback_length (g t : Word) : (compute_feedback g t).length = 5 :=
  (foldl_yellowStep_greenInv g t (List.range 5) _ (greenInv_init g t)).1

theorem compute_feedback_hit_bound (g t : Word) (ht : t.length = 5) :
    ∀ c : Char, hitCount c g (compute_feedback g t) ≤ t.count c := by
  intro c
  have h := foldl_yellowStep_hitInv g t (List.range 5) _ (hitInv_init g t ht) c
  unfold compute_feedback
  omega

/-- **C1.** For 5-letter `guess` and `target`, `compute_feedback` marks
position `i` Correct (2) exactly when `guess[i] == target[i]` — so the
number of Correct entries equals the number of agreeing positions — and for
every letter `c` the number of positions marked Correct or Present whose
guess letter is `c` never exceeds the multiplicity of `c` in the target. -/
theorem compute_feedback_correct_and_bounded (guess target : Word)
    (hg : guess.length = 5) (ht : target.length = 5) :
    (∀ i : Nat, i < 5 →
      ((compute_feedback guess target).getD i 0 = 2 ↔
        guess.getD i ' ' = target.getD i ' '))
    ∧ (compute_feedback guess target).count 2 =
        (List.range 5).countP
          (fun i => decide (guess.getD i ' ' = target.getD i ' '))
    ∧ ∀ c : Char, hitCount c guess (compute_feedback guess target) ≤ target.count c := by
  refine ⟨compute_feedback_green_iff guess target, ?_, compute_feedback_hit_bound guess target ht⟩
  have hlen := compute_feedback_length guess target
  have h0 := count_eq_countP_range (compute_feedback guess target) 2 0
  rw [hlen] at h0
  rw [h0]
  apply List.countP_congr
  intro i hi
  have h5 : i < 5 := List.mem_range.mp hi
  simp only [decide_eq_true_eq]
  exact compute_feedback_green_iff guess target i h5

/-- Witness for C1 at the spec's duplicate-letter example
(guess "sassy", target "class"). -/
theorem compute_feedback_correct_and_bounded_witness :
    (∀ i : Nat, i < 5 →
      ((compute_feedback "sassy".toList "class".toList).getD i 0 = 2 ↔
        ("sassy".toList).getD i ' ' = ("class".toList).getD i ' '))
    ∧ (compute_feedback "sassy".toList "class".toList).count 2 =
        (List.range 5).countP
          (fun i => decide (("sassy".toList).getD i ' ' = ("class".toList).getD i ' '))
    ∧ ∀ c : Char,
        hitCount c "sassy".toList (compute_feedback "sassy".toList "class".toList) ≤
          ("class".toList).count c :=
  compute_feedback_correct_and_bounded "sassy".toList "class".toList (by decide) (by decide)

/-! ## Partitioner lemmas (claim C2) -/

/-- All words collected across the partition's buckets. -/
def joinBuckets (bs : List (Feedback × List Word)) : List Word :=
  (bs.map Prod.snd).flatten

/-- Base-3 encoding of a feedback pattern; injective on length-5 patterns
with entries `≤ 2`, which bounds the number of distinct keys by `3^5`. -/
def encodeFB (fb : Feedback) : Nat :=
  fb.getD 0 0 + 3 * fb.getD 1 0 + 9 * fb.getD 2 0 + 27 * fb.getD 3 0 + 81 * fb.getD 4 0

theorem compute_feedback_le_two (g t : Word) : ∀ x ∈ compute_feedback g t, x ≤ 2 := by
  have hstep : ∀ (st : List Nat × List (Option Char)) (i : Nat),
      (∀ x ∈ st.1, x ≤ 2) → ∀ x ∈ (yellowStep g st i).1, x ≤ 2 := by
    intro st i h x hx
    unfold yellowStep at hx
    split at hx
    · exact h x hx
    · split at hx
      · simp only at hx
        rcases List.mem_or_eq_of_mem_set hx with h' | h'
        · exact h x h'
        · omega
      · exact h x hx
  have hfold : ∀ (l : List Nat) (st : List Nat × List (Option Char)),
      (∀ x ∈ st.1, x ≤ 2) → ∀ x ∈ (l.foldl (yellowStep g) st).1, x ≤ 2 := by
    intro l
    induction l with
    | nil => intro st h; exact h
    | cons y ys ih => intro st h; exact ih _ (hstep st y h)
  apply hfold
  intro x hx
  simp only [greenResult, List.mem_map] at hx
  obtain ⟨i, _, hi⟩ := hx
  split at hi <;> omega

theorem eq_five_of_length (l : List Nat) (h : l.length = 5) :
    l = [l.getD 0 0, l.getD 1 0, l.getD 2 0, l.getD 3 0, l.getD 4 0] := by
  rcases l with _ | ⟨a, _ | ⟨b, _ | ⟨c, _ | ⟨d, _ | ⟨e, rest⟩⟩⟩⟩⟩ <;> simp_all

theorem encodeFB_lt (k : Feedback) (h5 : k.length = 5) (hv : ∀ x ∈ k, x ≤ 2) :
    encodeFB k < 243 := by
  have hm : ∀ i : Nat, i < 5 → k.getD i 0 ≤ 2 := by
    intro i hi
    have hmem : k.getD i 0 ∈ k := by
      rw [List.getD_eq_getElem k 0 (by omega)]
      exact k.getElem_mem _
    exact hv _ hmem
  have h0 := hm 0 (by omega)
  have h1 := hm 1 (by omega)
  have h2 := hm 2 (by omega)
  have h3 := hm 3 (by omega)
  have h4 := hm 4 (by omega)
  unfold encodeFB
  omega

theorem encodeFB_inj (k1 k2 : Feedback) (h1 : k1.length = 5) (h2 : k2.length = 5)
    (hv1 : ∀ x ∈ k1, x ≤ 2) (hv2 : ∀ x ∈ k2, x ≤ 2)
    (he : encodeFB k1 = encodeFB k2) : k1 = k2 := by
  have hm1 : ∀ i : Nat, i < 5 → k1.getD i 0 ≤ 2 := by
    intro i hi
    refine hv1 _ ?_
    rw [List.getD_eq_getElem k1 0 (by omega)]
    exact k1.getElem_mem _
  have hm2 : ∀ i : Nat, i < 5 → k2.getD i 0 ≤ 2 := by
    intro i hi
    refine hv2 _ ?_
    rw [List.getD_eq_getElem k2 0 (by omega)]
    exact k2.getElem_mem _
  have a0 := hm1 0 (by omega); have a1 := hm1 1 (by omega); have a2 := hm1 2 (by omega)
  have a3 := hm1 3 (by omega); have a4 := hm1 4 (by omega)
  have b0 := hm2 0 (by omega); have b1 := hm2 1 (by omega); have b2 := hm2 2 (by omega)
  have b3 := hm2 3 (by omega); have b4 := hm2 4 (by omega)
  unfold encodeFB at he
  have d0 : k1.getD 0 0 = k2.getD 0 0 := by omega
  have d1 : k1.getD 1 0 = k2.getD 1 0 := by omega
  have d2 : k1.getD 2 0 = k2.getD 2 0 := by omega
  have d3 : k1.getD 3 0 = k2.getD 3 0 := by omega
  have d4 : k1.getD 4 0 = k2.getD 4 0 := by omega
  rw [eq_five_of_length k1 h1, eq_five_of_length k2 h2, d0, d1, d2, d3, d4]

theorem addToBucket_nil (fb : Feedback) (w : Word) :
    addToBucket [] fb w = [(fb, [w])] := rfl

theorem addToBucket_cons_eq (k : Feedback) (b : List Word)
    (rest : List (Feedback × List Word)) (w : Word) :
    addToBucket ((k, b) :: rest) k w = (k, b ++ [w]) :: rest := by
  simp [addToBucket]

theorem addToBucket_cons_ne (k : Feedback) (b : List Word)
    (rest : List (Feedback × List Word)) (fb : Feedback) (w : Word) (h : ¬ k = fb) :
    addToBucket ((k, b) :: rest) fb w = (k, b) :: addToBucket rest fb w := by
  simp [addToBucket, h]

/-- Keys of `addToBucket` are the old keys, or the old keys plus `fb`. -/
theorem addToBucket_keys_mem (bs : List (Feedback × List Word)) (fb : Feedback) (w : Word) :
    ∀ k ∈ (addToBucket bs fb w).map Prod.fst, k ∈ bs.map Prod.fst ∨ k = fb := by
  induction bs with
  | nil =>
    intro k hk
    rw [addToBucket_nil] at hk
    simp at hk
    exact Or.inr hk
  | cons p rest ih =>
    intro k hk
    obtain ⟨key, b⟩ := p
    by_cases hkey : key = fb
    · subst hkey
      rw [addToBucket_cons_eq] at hk
      simp only [List.map_cons, List.mem_cons] at hk ⊢
      tauto
    · rw [addToBucket_cons_ne _ _ _ _ _ hkey] at hk
      simp only [List.map_cons, List.mem_cons] at hk ⊢
      rcases hk with hk | hk
      · tauto
      · rcases ih k hk with h' | h' <;> tauto

theorem addToBucket_keys_nodup (bs : List (Feedback × List Word)) (fb : Feedback) (w : Word)
    (h : (bs.map Prod.fst).Nodup) : ((addToBucket bs fb w).map Prod.fst).Nodup := by
  induction bs with
  | nil =>
    rw [addToBucket_nil]
    simp
  | cons p rest ih =>
    obtain ⟨key, b⟩ := p
    simp only [List.map_cons, List.nodup_cons] at h
    by_cases hkey : key = fb
    · subst hkey
      rw [addToBucket_cons_eq]
      simp only [List.map_cons, List.nodup_cons]
      exact h
    · rw [addToBucket_cons_ne _ _ _ _ _ hkey]
      simp only [List.map_cons, List.nodup_cons]
      refine ⟨fun hmem => ?_, ih h.2⟩
      rcases addToBucket_keys_mem rest fb w key hmem with h' | h'
      · exact h.1 h'
      · exact hkey h'

theorem addToBucket_good (bs : List (Feedback × List Word)) (fb : Feedback) (w : Word)
    (F : Word → Feedback)
    (h : ∀ p ∈ bs, ∀ x ∈ p.2, F x = p.1) (hw : F w = fb) :
    ∀ p ∈ addToBucket bs fb w, ∀ x ∈ p.2, F x = p.1 := by
  induction bs with
  | nil =>
    intro p hp x hx
    rw [addToBucket_nil] at hp
    simp at hp
    subst hp
    simp at hx
    subst hx
    exact hw
  | cons q rest ih =>
    intro p hp x hx
    obtain ⟨key, b⟩ := q
    by_cases hkey : key = fb
    · subst hkey
      rw [addToBucket_cons_eq] at hp
      rcases List.mem_cons.mp hp with hp | hp
      · subst hp
        simp only [List.mem_append, List.mem_singleton] at hx
        rcases hx with hx | hx
        · exact h (key, b) (List.mem_cons_self _ _) x hx
        · subst hx; exact hw
      · exact h p (List.mem_cons_of_mem _ hp) x hx
    · rw [addToBucket_cons_ne _ _ _ _ _ hkey] at hp
      rcases List.mem_cons.mp hp with hp | hp
      · subst hp
        exact h (key, b) (List.mem_cons_self _ _) x hx
      · exact ih (fun q hq => h q (List.mem_cons_of_mem _ hq)) p hp x hx

theorem addToBucket_join_mem (bs : List (Feedback × List Word)) (fb : Feedback) (w : Word) :
    ∀ x, x ∈ joinBuckets (addToBucket bs fb w) ↔ x ∈ joinBuckets bs ∨ x = w := by
  induction bs with
  | nil =>
    intro x
    rw [addToBucket_nil]
    simp [joinBuckets]
  | cons q rest ih =>
    intro x
    obtain ⟨key, b⟩ := q
    by_cases hkey : key = fb
    · subst hkey
      rw [addToBucket_cons_eq]
      simp only [joinBuckets, List.map_cons, List.flatten_cons, List.mem_append,
        List.mem_singleton]
      tauto
    · rw [addToBucket_cons_ne _ _ _ _ _ hkey]
      simp only [joinBuckets, List.map_cons, List.flatten_cons, List.mem_append]
      rw [show (x ∈ (List.map Prod.snd (addToBucket rest fb w)).flatten ↔
        x ∈ joinBuckets rest ∨ x = w) from ih x]
      simp only [joinBuckets]
      tauto

theorem addToBucket_sizes_sum (bs : List (Feedback × List Word)) (fb : Feedback) (w : Word) :
    ((addToBucket bs fb w).map (fun p => p.2.length)).sum =
      (bs.map (fun p => p.2.length)).sum + 1 := by
  induction bs with
  | nil =>
    rw [addToBucket_nil]
    simp
  | cons q rest ih =>
    obtain ⟨key, b⟩ := q
    by_cases hkey : key = fb
    · subst hkey
      rw [addToBucket_cons_eq]
      simp
      omega
    · rw [addToBucket_cons_ne _ _ _ _ _ hkey]
      simp only [List.map_cons, List.sum_cons, ih]
      omega

theorem addToBucket_ne_nil (bs : List (Feedback × List Word)) (fb : Feedback) (w : Word)
    (h : ∀ p ∈ bs, p.2 ≠ []) : ∀ p ∈ addToBucket bs fb w, p.2 ≠ [] := by
  induction bs with
  | nil =>
    intro p hp
    rw [addToBucket_nil] at hp
    simp at hp
    subst hp
    simp
  | cons q rest ih =>
    intro p hp
    obtain ⟨key, b⟩ := q
    by_cases hkey : key = fb
    · subst hkey
      rw [addToBucket_cons_eq] at hp
      rcases List.mem_cons.mp hp with hp | hp
      · subst hp; simp
      · exact h p (List.mem_cons_of_mem _ hp)
    · rw [addToBucket_cons_ne _ _ _ _ _ hkey] at hp
      rcases List.mem_cons.mp hp with hp | hp
      · subst hp; exact h (key, b) (List.mem_cons_self _ _)
      · exact ih (fun q hq => h q (List.mem_cons_of_mem _ hq)) p hp

/-- Fold invariant carrier for `partition_by_feedback`. -/
theorem partition_foldl_inv (g : Word) (cs : List Word)
    (acc : List (Feedback × List Word))
    (h1 : ∀ p ∈ acc, ∀ x ∈ p.2, compute_feedback g x = p.1)
    (h2 : (acc.map Prod.fst).Nodup)
    (h3 : ∀ p ∈ acc, p.2 ≠ []) :
    (∀ p ∈ cs.foldl (fun bs t => addToBucket bs (compute_feedback g t) t) acc,
        ∀ x ∈ p.2, compute_feedback g x = p.1)
    ∧ ((cs.foldl (fun bs t => addToBucket bs (compute_feedback g t) t) acc).map Prod.fst).Nodup
    ∧ (∀ p ∈ cs.foldl (fun bs t => addToBucket bs (compute_feedback g t) t) acc, p.2 ≠ []) := by
  induction cs generalizing acc with
  | nil => exact ⟨h1, h2, h3⟩
  | cons c rest ih =>
    exact ih _ (addToBucket_good acc _ c _ h1 rfl)
      (addToBucket_keys_nodup acc _ c h2)
      (addToBucket_ne_nil acc _ c h3)

theorem partition_good (g : Word) (cs : List Word) :
    ∀ p ∈ partition_by_feedback g cs, ∀ x ∈ p.2, compute_feedback g x = p.1 :=
  (partition_foldl_inv g cs [] (by simp) (by simp) (by simp)).1

theorem partition_keys_nodup (g : Word) (cs : List Word) :
    ((partition_by_feedback g cs).map Prod.fst).Nodup :=
  (partition_foldl_inv g cs [] (by simp) (by simp) (by simp)).2.1

theorem partition_buckets_ne_nil (g : Word) (cs : List Word) :
    ∀ p ∈ partition_by_feedback g cs, p.2 ≠ [] :=
  (partition_foldl_inv g cs [] (by simp) (by simp) (by simp)).2.2

theorem partition_join_mem (g : Word) (cs : List Word) :
    ∀ x, x ∈ joinBuckets (partition_by_feedback g cs) ↔ x ∈ cs := by
  have hfold : ∀ (l : List Word) (acc : List (Feedback × List Word)) (x : Word),
      x ∈ joinBuckets (l.foldl (fun bs t => addToBucket bs (compute_feedback g t) t) acc) ↔
        x ∈ joinBuckets acc ∨ x ∈ l := by
    intro l
    induction l with
    | nil => intro acc x; simp
    | cons c rest ih =>
      intro acc x
      rw [List.foldl_cons, ih, addToBucket_join_mem, List.mem_cons]
      tauto
  intro x
  have := hfold cs [] x
  simp only [joinBuckets, List.map_nil, List.flatten_nil, List.not_mem_nil, false_or] at this
  exact this

theorem partition_sizes_sum (g : Word) (cs : List Word) :
    ((partition_by_feedback g cs).map (fun p => p.2.length)).sum = cs.length := by
  have hfold : ∀ (l : List Word) (acc : List (Feedback × List Word)),
      ((l.foldl (fun bs t => addToBucket bs (compute_feedback g t) t) acc).map
        (fun p => p.2.length)).sum = (acc.map (fun p => p.2.length)).sum + l.length := by
    intro l
    induction l with
    | nil => intro acc; simp
    | cons c rest ih =>
      intro acc
      rw [List.foldl_cons, ih, addToBucket_sizes_sum]
      simp
      omega
  have := hfold cs []
  simpa using this

theorem partition_length_le (g : Word) (cs : List Word) :
    (partition_by_feedback g cs).length ≤ 243 := by
  set P := partition_by_feedback g cs with hP
  have hkeys5 : ∀ k ∈ P.map Prod.fst, k.length = 5 := by
    intro k hk
    obtain ⟨p, hp, rfl⟩ := List.mem_map.mp hk
    obtain ⟨x, hx⟩ := List.exists_mem_of_ne_nil _ (partition_buckets_ne_nil g cs p hp)
    rw [← partition_good g cs p hp x hx]
    exact compute_feedback_length g x
  have hkeysv : ∀ k ∈ P.map Prod.fst, ∀ v ∈ k, v ≤ 2 := by
    intro k hk
    obtain ⟨p, hp, rfl⟩ := List.mem_map.mp hk
    obtain ⟨x, hx⟩ := List.exists_mem_of_ne_nil _ (partition_buckets_ne_nil g cs p hp)
    rw [← partition_good g cs p hp x hx]
    exact compute_feedback_le_two g x
  have hnd : ((P.map Prod.fst).map encodeFB).Nodup := by
    refine (List.nodup_map_iff_inj_on (partition_keys_nodup g cs)).mpr ?_
    intro k1 h1 k2 h2 he
    exact encodeFB_inj k1 k2 (hkeys5 k1 h1) (hkeys5 k2 h2) (hkeysv k1 h1) (hkeysv k2 h2) he
  have hlt : ∀ n ∈ (P.map Prod.fst).map encodeFB, n < 243 := by
    intro n hn
    obtain ⟨k, hk, rfl⟩ := List.mem_map.mp hn
    exact encodeFB_lt k (hkeys5 k hk) (hkeysv k hk)
  have hsub : ((P.map Prod.fst).map encodeFB).toFinset ⊆ Finset.range 243 := by
    intro n hn
    exact Finset.mem_range.mpr (hlt n (List.mem_toFinset.mp hn))
  have hcard := Finset.card_le_card hsub
  rw [List.toFinset_card_of_nodup hnd, Finset.card_range] at hcard
  simpa using hcard

/-- **C2.** `partition_by_feedback` is an exact partition: every word in a
bucket produces that bucket's key against the guess, the union of the
buckets is exactly the input candidate set, distinct buckets are disjoint,
and there are at most `243 = 3^5` buckets. -/
theorem partition_by_feedback_partitions (g : Word) (cs : List Word) :
    (∀ p ∈ partition_by_feedback g cs, ∀ x ∈ p.2, compute_feedback g x = p.1)
    ∧ (∀ x, x ∈ joinBuckets (partition_by_feedback g cs) ↔ x ∈ cs)
    ∧ (∀ p ∈ partition_by_feedback g cs, ∀ q ∈ partition_by_feedback g cs,
        p ≠ q → ∀ x, x ∈ p.2 → x ∉ q.2)
    ∧ (partition_by_feedback g cs).length ≤ 243 := by
  refine ⟨partition_good g cs, partition_join_mem g cs, ?_, partition_length_le g cs⟩
  intro p hp q hq hpq x hxp hxq
  have h1 : compute_feedback g x = p.1 := partition_good g cs p hp x hxp
  have h2 : compute_feedback g x = q.1 := partition_good g cs q hq x hxq
  have hfst : p.1 = q.1 := h1 ▸ h2
  exact hpq (List.inj_on_of_nodup_map (partition_keys_nodup g cs) hp hq hfst)

/-- Witness for C2 at the spec's four-word synthetic corpus. -/
theorem partition_by_feedback_partitions_witness :
    ((partition_by_feedback "abcde".toList
        ["abcde".toList, "abcxy".toList, "zbcde".toList, "zzzzz".toList]).length ≤ 243)
    ∧ (∀ x, x ∈ joinBuckets (partition_by_feedback "abcde".toList
        ["abcde".toList, "abcxy".toList, "zbcde".toList, "zzzzz".toList]) ↔
        x ∈ ["abcde".toList, "abcxy".toList, "zbcde".toList, "zzzzz".toList]) :=
  ⟨(partition_by_feedback_partitions "abcde".toList
      ["abcde".toList, "abcxy".toList, "zbcde".toList, "zzzzz".toList]).2.2.2,
   (partition_by_feedback_partitions "abcde".toList
      ["abcde".toList, "abcxy".toList, "zbcde".toList, "zzzzz".toList]).2.1⟩

/-! ## Constraint-filter lemmas (claim C3) -/

theorem filter_candidates_mem (pool : List Word) (guess w : Word) (fb : Feedback) :
    w ∈ filter_candidates pool guess fb ↔ w ∈ pool ∧ compute_feedback guess w = fb := by
  simp [filter_candidates]

/-- **C3.** A target drawn from the pool always survives filtering by the
feedback computed against itself, so the filtered list is never empty. -/
theorem filter_candidates_keeps_target (pool : List Word) (guess target : Word)
    (h : target ∈ pool) :
    target ∈ filter_candidates pool guess (compute_feedback guess target)
    ∧ filter_candidates pool guess (compute_feedback guess target) ≠ [] := by
  have hmem : target ∈ filter_candidates pool guess (compute_feedback guess target) :=
    (filter_candidates_mem pool guess target _).mpr ⟨h, rfl⟩
  refine ⟨hmem, fun hnil => ?_⟩
  rw [hnil] at hmem
  exact List.not_mem_nil _ hmem

/-- Witness for C3 on a two-word pool. -/
theorem filter_candidates_keeps_target_witness :
    "crane".toList ∈ filter_candidates ["raise".toList, "crane".toList] "raise".toList
        (compute_feedback "raise".toList "crane".toList)
    ∧ filter_candidates ["raise".toList, "crane".toList] "raise".toList
        (compute_feedback "raise".toList "crane".toList) ≠ [] :=
  filter_candidates_keeps_target ["raise".toList, "crane".toList] "raise".toList
    "crane".toList (by decide)

/-! ## Scorer (claims C5, C6)

`expected_remaining` and all heuristic scores are exact rationals in the
embedding (the source computes them in floating point); the entropy value
`expected_information` lives in `ℝ`. -/

/-- `analysis.expected_remaining`: `Σ |bucket|² / n`, returning `0.0` when
`n ≤ 1`. -/
def expected_remaining (guess : Word) (candidates : List Word) : ℚ :=
  if candidates.length ≤ 1 then 0
  else ((partition_by_feedback guess candidates).map
      (fun p => (p.2.length : ℚ) * p.2.length)).sum / candidates.length

/-- `analysis.worst_case_remaining`: `max(len(b) for b in buckets.values())`.
Python's `max` raises `ValueError` on an empty sequence; that error branch is
modelled by `none`. -/
def worst_case_remaining (guess : Word) (candidates : List Word) : Option Nat :=
  ((partition_by_feedback guess candidates).map (fun p => p.2.length)).max?

/-- `analysis.expected_information`: Shannon entropy `-Σ p·log2 p` of the
partition's bucket distribution (the source's `p > 0` guard is kept),
returning `0.0` when `n ≤ 1`.  The source computes this with floats; the
embedding uses the exact real value. -/
noncomputable def expected_information (guess : Word) (candidates : List Word) : ℝ :=
  if candidates.length ≤ 1 then 0
  else - ((partition_by_feedback guess candidates).map
      (fun p => if (0 : ℝ) < (p.2.length : ℝ) / candidates.length then
          ((p.2.length : ℝ) / candidates.length) *
            Real.logb 2 ((p.2.length : ℝ) / candidates.length)
        else 0)).sum

theorem sum_sq_le_sq_sum_q (l : List ℚ) (h : ∀ x ∈ l, 0 ≤ x) :
    (l.map (fun s => s * s)).sum ≤ l.sum * l.sum := by
  induction l with
  | nil => simp
  | cons a rest ih =>
    have ha : 0 ≤ a := h a (List.mem_cons_self _ _)
    have hrest : ∀ x ∈ rest, 0 ≤ x := fun x hx => h x (List.mem_cons_of_mem _ hx)
    have hsum : 0 ≤ rest.sum := List.sum_nonneg hrest
    have := ih hrest
    simp only [List.map_cons, List.sum_cons]
    nlinarith

theorem sum_sq_lt_sq_sum_q (a b : ℚ) (rest : List ℚ) (ha : 1 ≤ a) (hb : 1 ≤ b)
    (hrest : ∀ x ∈ rest, 0 ≤ x) :
    ((a :: b :: rest).map (fun s => s * s)).sum < (a :: b :: rest).sum * (a :: b :: rest).sum := by
  have h1 := sum_sq_le_sq_sum_q (b :: rest)
    (fun x hx => by
      rcases List.mem_cons.mp hx with h' | h'
      · exact h' ▸ le_trans zero_le_one hb
      · exact hrest x h')
  have hsum : 0 ≤ rest.sum := List.sum_nonneg hrest
  simp only [List.map_cons, List.sum_cons] at *
  nlinarith

/-- Cast of the bucket-size sum. -/
theorem partition_sizes_sum_q (g : Word) (cs : List Word) :
    (((partition_by_feedback g cs).map (fun p => (p.2.length : ℚ))).sum) = cs.length := by
  have h := partition_sizes_sum g cs
  have : ((partition_by_feedback g cs).map (fun p => (p.2.length : ℚ))) =
      ((partition_by_feedback g cs).map (fun p => p.2.length)).map (fun n : Nat => (n : ℚ)) := by
    rw [List.map_map]
    rfl
  rw [this, ← Nat.cast_list_sum, h]

theorem partition_sq_sum_eq (g : Word) (cs : List Word) :
    ((partition_by_feedback g cs).map (fun p => (p.2.length : ℚ) * p.2.length)).sum =
      (((partition_by_feedback g cs).map (fun p => (p.2.length : ℚ))).map
        (fun s => s * s)).sum := by
  rw [List.map_map]
  rfl

/-- **C5 (amended).** For `n ≥ 2` candidates: `n · expected_remaining` equals
the sum of squared bucket sizes, `expected_remaining ≤ n`, and equality holds
exactly when the partition is one single bucket holding all `n` candidates.
(The original claim fails at `n = 1`, where the early return `0.0` breaks
the identity; see the counterexample.) -/
theorem expected_remaining_spec (g : Word) (cs : List Word) (h2 : 2 ≤ cs.length) :
    (cs.length : ℚ) * expected_remaining g cs =
      ((partition_by_feedback g cs).map (fun p => (p.2.length : ℚ) * p.2.length)).sum
    ∧ expected_remaining g cs ≤ cs.length
    ∧ (expected_remaining g cs = cs.length ↔
        ∃ fb b, partition_by_feedback g cs = [(fb, b)] ∧ b.length = cs.length) := by
  have hn1 : ¬ cs.length ≤ 1 := by omega
  have hnpos : (0 : ℚ) < cs.length := by
    exact_mod_cast (by omega : 0 < cs.length)
  have hn0 : ((cs.length : ℚ)) ≠ 0 := ne_of_gt hnpos
  have hid : (cs.length : ℚ) * expected_remaining g cs =
      ((partition_by_feedback g cs).map (fun p => (p.2.length : ℚ) * p.2.length)).sum := by
    rw [expected_remaining, if_neg hn1]
    field_simp
  have hsizes := partition_sizes_sum_q g cs
  have hpos : ∀ x ∈ (partition_by_feedback g cs).map (fun p => (p.2.length : ℚ)), 1 ≤ x := by
    intro x hx
    obtain ⟨p, hp, rfl⟩ := List.mem_map.mp hx
    have hne := partition_buckets_ne_nil g cs p hp
    have hlen : 1 ≤ p.2.length := by
      cases hq : p.2 with
      | nil => exact absurd hq hne
      | cons y ys => simp [hq]
    exact_mod_cast hlen
  have hle : ((partition_by_feedback g cs).map (fun p => (p.2.length : ℚ) * p.2.length)).sum ≤
      (cs.length : ℚ) * cs.length := by
    rw [partition_sq_sum_eq g cs, ← hsizes]
    exact sum_sq_le_sq_sum_q _ (fun x hx => le_trans zero_le_one (hpos x hx))
  refine ⟨hid, ?_, ?_⟩
  · have her : expected_remaining g cs =
        ((partition_by_feedback g cs).map (fun p => (p.2.length : ℚ) * p.2.length)).sum /
          cs.length := by
      rw [expected_remaining, if_neg hn1]
    rw [her, div_le_iff₀ hnpos]
    exact hle
  · constructor
    · intro heq
      have hS2n : ((partition_by_feedback g cs).map
          (fun p => (p.2.length : ℚ) * p.2.length)).sum = (cs.length : ℚ) * cs.length := by
        rw [← hid, heq]
      have hPne : partition_by_feedback g cs ≠ [] := by
        intro hnil
        rw [hnil] at hsizes
        simp at hsizes
        have h0 : cs.length = 0 := by exact_mod_cast hsizes.symm
        omega
      obtain ⟨p, P', hP'⟩ := List.exists_cons_of_ne_nil hPne
      rcases P' with _ | ⟨q, rest⟩
      · obtain ⟨fb, b⟩ := p
        refine ⟨fb, b, hP', ?_⟩
        rw [hP'] at hsizes
        simp at hsizes
        exact_mod_cast hsizes
      · exfalso
        have h1 : 1 ≤ (p.2.length : ℚ) := hpos _ (by rw [hP']; simp)
        have hq1 : 1 ≤ (q.2.length : ℚ) := hpos _ (by rw [hP']; simp)
        have hstrict : ((partition_by_feedback g cs).map
            (fun p => (p.2.length : ℚ) * p.2.length)).sum < (cs.length : ℚ) * cs.length := by
          rw [partition_sq_sum_eq g cs, ← hsizes, hP']
          simp only [List.map_cons]
          exact sum_sq_lt_sq_sum_q _ _ _ h1 hq1
            (fun x hx => by
              refine le_trans zero_le_one (hpos x ?_)
              rw [hP']
              simp only [List.map_cons, List.mem_cons]
              tauto)
        rw [hS2n] at hstrict
        exact lt_irrefl _ hstrict
    · rintro ⟨fb, b, hPb, hblen⟩
      have her : expected_remaining g cs =
          ((partition_by_feedback g cs).map (fun p => (p.2.length : ℚ) * p.2.length)).sum /
            cs.length := by
        rw [expected_remaining, if_neg hn1]
      rw [her, hPb]
      simp only [List.map_cons, List.map_nil, List.sum_cons, List.sum_nil, add_zero]
      rw [hblen]
      field_simp

/-- Counterexample to C5 as stated: at a single-candidate list the identity
`n · expected_remaining = Σ |bucket|²` fails (`1 · 0 ≠ 1`). -/
theorem expected_remaining_identity_fails_n1 :
    ¬ (((["aaaaa".toList] : List Word).length : ℚ) *
        expected_remaining "aaaaa".toList ["aaaaa".toList] =
      ((partition_by_feedback "aaaaa".toList ["aaaaa".toList]).map
        (fun p => (p.2.length : ℚ) * p.2.length)).sum) := by
  intro h
  rw [show expected_remaining "aaaaa".toList ["aaaaa".toList] = 0 from rfl, mul_zero,
    show partition_by_feedback "aaaaa".toList ["aaaaa".toList] =
      [(compute_feedback "aaaaa".toList "aaaaa".toList, ["aaaaa".toList])] from rfl] at h
  simp only [List.map_cons, List.map_nil, List.sum_cons, List.sum_nil, add_zero] at h
  norm_num at h

/-- Witness for C5 (amended) on a two-word candidate list. -/
theorem expected_remaining_spec_witness :
    ((["aaaaa".toList, "bbbbb".toList] : List Word).length : ℚ) *
        expected_remaining "aaaaa".toList ["aaaaa".toList, "bbbbb".toList] =
      ((partition_by_feedback "aaaaa".toList ["aaaaa".toList, "bbbbb".toList]).map
        (fun p => (p.2.length : ℚ) * p.2.length)).sum
    ∧ expected_remaining "aaaaa".toList ["aaaaa".toList, "bbbbb".toList] ≤
        (["aaaaa".toList, "bbbbb".toList] : List Word).length
    ∧ (expected_remaining "aaaaa".toList ["aaaaa".toList, "bbbbb".toList] =
        (["aaaaa".toList, "bbbbb".toList] : List Word).length ↔
        ∃ fb b, partition_by_feedback "aaaaa".toList ["aaaaa".toList, "bbbbb".toList] =
          [(fb, b)] ∧ b.length = (["aaaaa".toList, "bbbbb".toList] : List Word).length) :=
  expected_remaining_spec "aaaaa".toList ["aaaaa".toList, "bbbbb".toList] (by decide)

/-- **C6 (amended).** For `n ≤ 1` candidates, `expected_information` and
`expected_remaining` return `0`; `worst_case_remaining` returns the trivial
value `1` for a singleton list, but for the empty list it takes the maximum
of an empty collection — Python's `ValueError`, modelled as `none` — so the
error branch *is* reachable at `n = 0` (see the counterexample). -/
theorem scorers_trivial_small (g : Word) (cs : List Word) (h : cs.length ≤ 1) :
    expected_information g cs = 0 ∧ expected_remaining g cs = 0
    ∧ (cs = [] → worst_case_remaining g cs = none)
    ∧ (∀ x : Word, cs = [x] → worst_case_remaining g cs = some 1) := by
  refine ⟨?_, ?_, ?_, ?_⟩
  · rw [expected_information, if_pos h]
  · rw [expected_remaining, if_pos h]
  · intro hnil
    subst hnil
    rfl
  · intro x hx
    subst hx
    rfl

/-- Counterexample to C6 as stated: `worst_case_remaining` on an empty
candidate list reaches the `max`-of-empty-collection error branch. -/
theorem worst_case_remaining_empty_fails :
    worst_case_remaining "aaaaa".toList [] = none := rfl

/-- Witness for C6 (amended) at a singleton candidate list. -/
theorem scorers_trivial_small_witness :
    expected_information "bbbbb".toList ["aaaaa".toList] = 0
    ∧ expected_remaining "bbbbb".toList ["aaaaa".toList] = 0
    ∧ (["aaaaa".toList] = ([] : List Word) →
        worst_case_remaining "bbbbb".toList ["aaaaa".toList] = none)
    ∧ (∀ x : Word, ["aaaaa".toList] = [x] →
        worst_case_remaining "bbbbb".toList ["aaaaa".toList] = some 1) :=
  scorers_trivial_small "bbbbb".toList ["aaaaa".toList] (by decide)

/-! ## Exact entropy comparisons (for claim C7)

`best_guess_by_info` compares float entropies of different guesses over one
fixed candidate list.  For a partition with bucket sizes `b₁ … bₖ` summing
to `n`, the entropy is `log2 n − log2 (∏ bᵢ ^ bᵢ) / n`, so comparisons of
entropies reduce to reversed comparisons of the integer `∏ bᵢ ^ bᵢ`.  The
key below implements that exactly; the lemmas prove the order equivalence
with `expected_information`. -/

/-- `∏ |bucket| ^ |bucket|` over the partition of `candidates` by `g`:
an exact, computable entropy-comparison key (smaller key = larger
`expected_information`). -/
def infoKey (g : Word) (cs : List Word) : Nat :=
  ((partition_by_feedback g cs).map (fun p => p.2.length ^ p.2.length)).prod

theorem list_one_le_prod (l : List Nat) (h : ∀ b ∈ l, 1 ≤ b) : 1 ≤ l.prod := by
  induction l with
  | nil => simp
  | cons a rest ih =>
    have ha := h a (List.mem_cons_self _ _)
    have hr := ih (fun b hb => h b (List.mem_cons_of_mem _ hb))
    simp only [List.prod_cons]
    exact Nat.one_le_iff_ne_zero.mpr (Nat.mul_ne_zero (by omega) (by omega))

theorem infoKey_pos (g : Word) (cs : List Word) : 1 ≤ infoKey g cs := by
  apply list_one_le_prod
  intro b hb
  obtain ⟨p, hp, rfl⟩ := List.mem_map.mp hb
  have hne := partition_buckets_ne_nil g cs p hp
  have hlen : 1 ≤ p.2.length := by
    cases hq : p.2 with
    | nil => exact absurd hq hne
    | cons y ys => simp [hq]
  exact Nat.one_le_pow _ _ (by omega)

theorem sum_mul_logb_eq_logb_prod (sizes : List Nat) (h : ∀ b ∈ sizes, 1 ≤ b) :
    (sizes.map (fun b : Nat => (b : ℝ) * Real.logb 2 b)).sum =
      Real.logb 2 ((sizes.map (fun b => b ^ b)).prod : ℕ) := by
  induction sizes with
  | nil => simp
  | cons a rest ih =>
    have ha := h a (List.mem_cons_self _ _)
    have hrest := ih (fun b hb => h b (List.mem_cons_of_mem _ hb))
    have hprod : 1 ≤ ((rest.map (fun b => b ^ b)).prod : ℕ) := by
      apply list_one_le_prod
      intro b hb
      obtain ⟨c, hc, rfl⟩ := List.mem_map.mp hb
      exact Nat.one_le_pow _ _ (by have := h c (List.mem_cons_of_mem _ hc); omega)
    have haR : ((a : ℝ)) ≠ 0 := by
      have : (1 : ℝ) ≤ (a : ℝ) := by exact_mod_cast ha
      linarith
    have hpowR : ((a : ℝ)) ^ a ≠ 0 := pow_ne_zero _ haR
    have hprodR : (((rest.map (fun b => b ^ b)).prod : ℕ) : ℝ) ≠ 0 := by
      have : (1 : ℝ) ≤ (((rest.map (fun b => b ^ b)).prod : ℕ) : ℝ) := by exact_mod_cast hprod
      linarith
    simp only [List.map_cons, List.sum_cons, List.prod_cons]
    rw [Nat.cast_mul, Nat.cast_pow, Real.logb_mul hpowR hprodR, Real.logb_pow, hrest]

theorem entropy_sum_div (sizes : List Nat) (n : Nat) (hn : 1 ≤ n)
    (h : ∀ b ∈ sizes, 1 ≤ b) :
    (sizes.map (fun b : Nat => ((b : ℝ) / n) * Real.logb 2 ((b : ℝ) / n))).sum =
      ((sizes.map (fun b : Nat => (b : ℝ) * Real.logb 2 b)).sum -
        (sizes.sum : ℝ) * Real.logb 2 n) / n := by
  have hnR : ((n : ℝ)) ≠ 0 := by
    have : (1 : ℝ) ≤ (n : ℝ) := by exact_mod_cast hn
    linarith
  induction sizes with
  | nil => simp
  | cons a rest ih =>
    have ha := h a (List.mem_cons_self _ _)
    have haR : ((a : ℝ)) ≠ 0 := by
      have : (1 : ℝ) ≤ (a : ℝ) := by exact_mod_cast ha
      linarith
    have hrest := ih (fun b hb => h b (List.mem_cons_of_mem _ hb))
    simp only [List.map_cons, List.sum_cons]
    rw [Real.logb_div haR hnR, hrest, Nat.cast_add]
    field_simp
    ring

/-- For `n ≥ 2` candidates the source's entropy equals
`log2 n − log2 (infoKey) / n`. -/
theorem expected_information_eq (g : Word) (cs : List Word) (h2 : 2 ≤ cs.length) :
    expected_information g cs =
      Real.logb 2 cs.length - Real.logb 2 (infoKey g cs) / cs.length := by
  have hn1 : ¬ cs.length ≤ 1 := by omega
  have hnR : (0 : ℝ) < (cs.length : ℝ) := by
    exact_mod_cast (by omega : 0 < cs.length)
  have hpos : ∀ b ∈ (partition_by_feedback g cs).map (fun p => p.2.length), 1 ≤ b := by
    intro b hb
    obtain ⟨p, hp, rfl⟩ := List.mem_map.mp hb
    have hne := partition_buckets_ne_nil g cs p hp
    cases hq : p.2 with
    | nil => exact absurd hq hne
    | cons y ys => simp [hq]
  rw [expected_information, if_neg hn1]
  have hstep1 : (partition_by_feedback g cs).map
      (fun p => if (0 : ℝ) < (p.2.length : ℝ) / cs.length then
          ((p.2.length : ℝ) / cs.length) * Real.logb 2 ((p.2.length : ℝ) / cs.length)
        else 0) =
      ((partition_by_feedback g cs).map (fun p => p.2.length)).map
        (fun b : Nat => if (0 : ℝ) < (b : ℝ) / cs.length then
          ((b : ℝ) / cs.length) * Real.logb 2 ((b : ℝ) / cs.length) else 0) := by
    rw [List.map_map]
    rfl
  rw [hstep1]
  have hstep2 : ((partition_by_feedback g cs).map (fun p => p.2.length)).map
      (fun b : Nat => if (0 : ℝ) < (b : ℝ) / cs.length then
          ((b : ℝ) / cs.length) * Real.logb 2 ((b : ℝ) / cs.length) else 0) =
      ((partition_by_feedback g cs).map (fun p => p.2.length)).map
        (fun b : Nat => ((b : ℝ) / cs.length) * Real.logb 2 ((b : ℝ) / cs.length)) := by
    apply List.map_congr_left
    intro b hb
    have hb1 := hpos b hb
    have hbR : (0 : ℝ) < (b : ℝ) := by exact_mod_cast (by omega : 0 < b)
    rw [if_pos (div_pos hbR hnR)]
  rw [hstep2, entropy_sum_div _ cs.length (by omega) hpos, partition_sizes_sum g cs,
    sum_mul_logb_eq_logb_prod _ hpos]
  have hkey : ((((partition_by_feedback g cs).map (fun p => p.2.length)).map
      (fun b => b ^ b)).prod : ℕ) = infoKey g cs := by
    rw [List.map_map]
    rfl
  rw [hkey]
  field_simp
  ring

theorem logb_two_nat_le_iff (a b : Nat) (ha : 1 ≤ a) (hb : 1 ≤ b) :
    Real.logb 2 (a : ℝ) ≤ Real.logb 2 (b : ℝ) ↔ a ≤ b := by
  have haR : (0 : ℝ) < (a : ℝ) := by exact_mod_cast (by omega : 0 < a)
  have hbR : (0 : ℝ) < (b : ℝ) := by exact_mod_cast (by omega : 0 < b)
  have hlog2 : (0 : ℝ) < Real.log 2 := Real.log_pos (by norm_num)
  rw [Real.logb, Real.logb, div_le_div_iff_of_pos_right hlog2, Real.log_le_log_iff haR hbR,
    Nat.cast_le]

/-- Entropy order over one candidate list is the reversed `infoKey` order. -/
theorem expected_information_le_iff (u v : Word) (cs : List Word) (h2 : 2 ≤ cs.length) :
    expected_information u cs ≤ expected_information v cs ↔
      infoKey v cs ≤ infoKey u cs := by
  have hnR : (0 : ℝ) < (cs.length : ℝ) := by
    exact_mod_cast (by omega : 0 < cs.length)
  rw [expected_information_eq u cs h2, expected_information_eq v cs h2,
    sub_le_sub_iff_left, div_le_div_iff_of_pos_right hnR,
    logb_two_nat_le_iff _ _ (infoKey_pos v cs) (infoKey_pos u cs)]

theorem expected_information_lt_iff (u v : Word) (cs : List Word) (h2 : 2 ≤ cs.length) :
    expected_information u cs < expected_information v cs ↔
      infoKey v cs < infoKey u cs := by
  rw [← not_le, ← not_le, expected_information_le_iff v u cs h2]

theorem expected_information_eq_iff (u v : Word) (cs : List Word) (h2 : 2 ≤ cs.length) :
    expected_information u cs = expected_information v cs ↔
      infoKey u cs = infoKey v cs := by
  rw [le_antisymm_iff, le_antisymm_iff,
    expected_information_le_iff u v cs h2, expected_information_le_iff v u cs h2]
  exact and_comm

/-! ## Entropy-maximizing selector (`simulate.best_guess_by_info`, claim C7) -/

/-- One iteration of the scan loop in `simulate.best_guess_by_info`.
The source compares float entropies; here `info > best_info` is `key < bk`
(the reversed exact key order, lemma `expected_information_lt_iff`),
`info == best_info` is `key = bk`, and the initial `best_info = -1` —
strictly below every entropy value — is the `none` state, which the first
scanned word always replaces. -/
def infoBest (cs : List Word) (best : Option (Word × Nat × Bool)) (w : Word) :
    Option (Word × Nat × Bool) :=
  let key := infoKey w cs
  let isCand : Bool := decide (w ∈ cs)
  match best with
  | none => some (w, key, isCand)
  | some (bw, bk, bc) =>
    if key < bk ∨ (key = bk ∧ isCand = true ∧ bc = false) then some (w, key, isCand)
    else some (bw, bk, bc)

/-- `simulate.best_guess_by_info`: pick the guess maximizing expected
information; ties prefer words that are themselves candidates.  Python's
`valid_guesses if valid_guesses else candidates` (an empty list is falsy)
selects the candidate list when the pool is `None` or empty; with at most
2 candidates the source returns `candidates[0]` (`none` on an empty list,
modelling the `IndexError`). -/
def best_guess_by_info (candidates : List Word) (valid_guesses : Option (List Word)) :
    Option Word :=
  if candidates.length ≤ 2 then candidates.head?
  else
    let pool := match valid_guesses with
      | some (v :: vs) => v :: vs
      | _ => candidates
    (pool.foldl (infoBest candidates) none).map (fun b => b.1)

/-- Scan-state invariant for the `infoBest` fold over a processed prefix:
the stored word is a minimal-key (maximal-entropy) word of the prefix, its
key and candidate flag are cached correctly, a non-candidate best means no
key-tied prefix word is a candidate, and everything strictly before the
stored word in the prefix loses to it. -/
def InfoScanInv (cs processed : List Word) : Option (Word × Nat × Bool) → Prop
  | none => processed = []
  | some (bw, bk, bc) =>
      bw ∈ processed ∧ bk = infoKey bw cs ∧ bc = decide (bw ∈ cs) ∧
      (∀ v ∈ processed, bk ≤ infoKey v cs) ∧
      (bc = false → ∀ v ∈ processed, infoKey v cs = bk → v ∉ cs) ∧
      ∃ p₁ p₂, processed = p₁ ++ bw :: p₂ ∧
        ∀ v ∈ p₁, bk < infoKey v cs ∨ (infoKey v cs = bk ∧ v ∉ cs)

theorem infoBest_inv (cs processed : List Word) (st : Option (Word × Nat × Bool)) (w : Word)
    (h : InfoScanInv cs processed st) :
    InfoScanInv cs (processed ++ [w]) (infoBest cs st w) := by
  cases st with
  | none =>
    have hp : processed = [] := h
    subst hp
    refine ⟨by simp, rfl, rfl, ?_, ?_, [], [], by simp, by simp⟩
    · intro v hv
      simp at hv
      subst hv
      exact le_refl _
    · intro hbc v hv hk hmemv
      simp at hv
      subst hv
      simp [hmemv] at hbc
  | some b =>
    obtain ⟨bw, bk, bc⟩ := b
    obtain ⟨hmem, hbk, hbc, hmin, hclause, p₁, p₂, hsplit, hp₁⟩ := h
    show InfoScanInv cs (processed ++ [w])
      (if infoKey w cs < bk ∨ (infoKey w cs = bk ∧ decide (w ∈ cs) = true ∧ bc = false)
        then some (w, infoKey w cs, decide (w ∈ cs)) else some (bw, bk, bc))
    split
    case isTrue hcond =>
      refine ⟨by simp, rfl, rfl, ?_, ?_, processed, [], by simp, ?_⟩
      · intro v hv
        rcases List.mem_append.mp hv with hv | hv
        · rcases hcond with hlt | ⟨heq, _, _⟩
          · exact le_trans (le_of_lt hlt) (hmin v hv)
          · rw [heq]
            exact hmin v hv
        · simp at hv
          subst hv
          exact le_refl _
      · intro hwc v hv hk
        rcases List.mem_append.mp hv with hv | hv
        · rcases hcond with hlt | ⟨heq, hic, hbcf⟩
          · exfalso
            have := hmin v hv
            omega
          · exfalso
            rw [hic] at hwc
            simp at hwc
        · simp at hv
          subst hv
          intro hmemv
          simp [hmemv] at hwc
      · intro v hv
        rcases hcond with hlt | ⟨heq, hic, hbcf⟩
        · left
          exact lt_of_lt_of_le hlt (hmin v hv)
        · have hle := hmin v hv
          rcases lt_or_eq_of_le hle with hlt' | heq'
          · left
            rw [heq]
            exact hlt'
          · right
            refine ⟨by rw [← heq', heq], ?_⟩
            exact hclause hbcf v hv heq'.symm
    case isFalse hcond =>
      push_neg at hcond
      refine ⟨List.mem_append_left _ hmem, hbk, hbc, ?_, ?_, p₁, p₂ ++ [w],
        by rw [hsplit]; simp, hp₁⟩
      · intro v hv
        rcases List.mem_append.mp hv with hv | hv
        · exact hmin v hv
        · simp at hv
          subst hv
          exact hcond.1
      · intro hbcf v hv hk
        rcases List.mem_append.mp hv with hv | hv
        · exact hclause hbcf v hv hk
        · simp at hv
          subst hv
          intro hmemv
          exact hcond.2 hk (decide_eq_true hmemv) hbcf

theorem infoScan_final (cs pool : List Word) :
    InfoScanInv cs pool (pool.foldl (infoBest cs) none) := by
  have hgen : ∀ (l processed : List Word) (st : Option (Word × Nat × Bool)),
      InfoScanInv cs processed st →
      InfoScanInv cs (processed ++ l) (l.foldl (infoBest cs) st) := by
    intro l
    induction l with
    | nil =>
      intro processed st h
      simpa using h
    | cons x xs ih =>
      intro processed st h
      have h1 := infoBest_inv cs processed st x h
      have h2 := ih (processed ++ [x]) _ h1
      simpa [List.append_assoc] using h2
  have := hgen pool [] none rfl
  simpa using this

/-- **C7 (amended).** For ≥3 candidates and a nonempty pool,
`best_guess_by_info` returns a pool word whose `expected_information`
against the candidates is maximal over the pool; among maximal words it
prefers one that is itself a candidate, and subject to that returns the
earliest eligible word in *pool order* — not the lexicographically
smallest (see the counterexample).  With ≤2 candidates the source returns
`candidates[0]` regardless of the pool. -/
theorem best_guess_by_info_spec (candidates pool : List Word) :
    (candidates.length ≤ 2 → best_guess_by_info candidates (some pool) = candidates.head?)
    ∧ (3 ≤ candidates.length → pool ≠ [] →
      ∃ w, best_guess_by_info candidates (some pool) = some w ∧ w ∈ pool ∧
        (∀ v ∈ pool, expected_information v candidates ≤ expected_information w candidates) ∧
        (w ∉ candidates → ∀ v ∈ pool,
          expected_information v candidates = expected_information w candidates →
            v ∉ candidates) ∧
        ∃ p₁ p₂, pool = p₁ ++ w :: p₂ ∧ ∀ v ∈ p₁,
          expected_information v candidates < expected_information w candidates ∨
            (expected_information v candidates = expected_information w candidates ∧
              v ∉ candidates)) := by
  constructor
  · intro hle
    unfold best_guess_by_info
    rw [if_pos hle]
  · intro h3 hpool
    have h2 : 2 ≤ candidates.length := by omega
    have hn2 : ¬ candidates.length ≤ 2 := by omega
    rcases pool with _ | ⟨v0, vs⟩
    · exact absurd rfl hpool
    have hbg : best_guess_by_info candidates (some (v0 :: vs)) =
        ((v0 :: vs).foldl (infoBest candidates) none).map (fun b => b.1) := by
      rw [best_guess_by_info, if_neg hn2]
    have hinv := infoScan_final candidates (v0 :: vs)
    cases hst : (v0 :: vs).foldl (infoBest candidates) none with
    | none =>
      rw [hst] at hinv
      have hcontra : (v0 :: vs : List Word) = [] := hinv
      simp at hcontra
    | some b =>
      obtain ⟨bw, bk, bc⟩ := b
      rw [hst] at hinv
      obtain ⟨hmem, hbk, hbc, hmin, hclause, p₁, p₂, hsplit, hp₁⟩ := hinv
      refine ⟨bw, ?_, hmem, ?_, ?_, p₁, p₂, hsplit, ?_⟩
      · rw [hbg, hst]
        rfl
      · intro v hv
        rw [expected_information_le_iff v bw candidates h2, ← hbk]
        exact hmin v hv
      · intro hwnc v hv heq
        have hbcf : bc = false := by
          rw [hbc]
          exact decide_eq_false hwnc
        have hkeq : infoKey v candidates = bk := by
          rw [hbk]
          exact (expected_information_eq_iff v bw candidates h2).mp heq
        exact hclause hbcf v hv hkeq
      · intro v hv
        rcases hp₁ v hv with hlt | ⟨hkeq, hnc⟩
        · left
          rw [expected_information_lt_iff v bw candidates h2, ← hbk]
          exact hlt
        · right
          refine ⟨(expected_information_eq_iff v bw candidates h2).mpr ?_, hnc⟩
          rw [hkeq, hbk]

/-- Counterexample to C7 as stated: with candidates (as pool)
`["bbbbb", "aaaaa", "ccccc"]` all three words tie at maximal expected
information and all are candidates, yet the selector returns `"bbbbb"` —
the first in pool order — not the lexicographically smallest `"aaaaa"`. -/
theorem best_guess_by_info_not_lex :
    best_guess_by_info ["bbbbb".toList, "aaaaa".toList, "ccccc".toList] none =
      some "bbbbb".toList
    ∧ "aaaaa".toList ∈ (["bbbbb".toList, "aaaaa".toList, "ccccc".toList] : List Word)
    ∧ expected_information "aaaaa".toList
        ["bbbbb".toList, "aaaaa".toList, "ccccc".toList] =
      expected_information "bbbbb".toList
        ["bbbbb".toList, "aaaaa".toList, "ccccc".toList]
    ∧ List.Lex (· < ·) "aaaaa".toList "bbbbb".toList := by
  refine ⟨by decide, by decide, ?_, List.Lex.rel (by decide)⟩
  refine (expected_information_eq_iff "aaaaa".toList "bbbbb".toList
    ["bbbbb".toList, "aaaaa".toList, "ccccc".toList] (by decide)).mpr (by decide)

/-- Witness for C7 (amended) at a three-candidate list with a singleton pool. -/
theorem best_guess_by_info_spec_witness :
    ∃ w, best_guess_by_info ["aaaaa".toList, "bbbbb".toList, "ccccc".toList]
        (some ["bbbbb".toList]) = some w ∧ w ∈ (["bbbbb".toList] : List Word) ∧
      (∀ v ∈ (["bbbbb".toList] : List Word),
        expected_information v ["aaaaa".toList, "bbbbb".toList, "ccccc".toList] ≤
          expected_information w ["aaaaa".toList, "bbbbb".toList, "ccccc".toList]) ∧
      (w ∉ (["aaaaa".toList, "bbbbb".toList, "ccccc".toList] : List Word) →
        ∀ v ∈ (["bbbbb".toList] : List Word),
          expected_information v ["aaaaa".toList, "bbbbb".toList, "ccccc".toList] =
            expected_information w ["aaaaa".toList, "bbbbb".toList, "ccccc".toList] →
            v ∉ (["aaaaa".toList, "bbbbb".toList, "ccccc".toList] : List Word)) ∧
      ∃ p₁ p₂, (["bbbbb".toList] : List Word) = p₁ ++ w :: p₂ ∧ ∀ v ∈ p₁,
        expected_information v ["aaaaa".toList, "bbbbb".toList, "ccccc".toList] <
          expected_information w ["aaaaa".toList, "bbbbb".toList, "ccccc".toList] ∨
          (expected_information v ["aaaaa".toList, "bbbbb".toList, "ccccc".toList] =
            expected_information w ["aaaaa".toList, "bbbbb".toList, "ccccc".toList] ∧
            v ∉ (["aaaaa".toList, "bbbbb".toList, "ccccc".toList] : List Word)) :=
  (best_guess_by_info_spec ["aaaaa".toList, "bbbbb".toList, "ccccc".toList]
    ["bbbbb".toList]).2 (by decide) (by decide)

/-! ## Heuristic selectors (`simulate.py`, `improved_strategy.py`,
`strategy_v2.py`, `final_simulation.py`) -/

/-- The global letter-priority list shared verbatim by `simulate.py`,
`improved_strategy.py`, `strategy_v2.py` and `final_simulation.py`. -/
def LETTER_PRIORITY : List Char := "earotilsnucyhdpgmbfkwvxzqj".toList

/-- `pos_freq[i][c]` from `analysis.positional_letter_frequency`: how many
words have letter `c` at position `i` (words shorter than `i + 1`
contribute nothing, as with Python's `enumerate`). -/
def posCount (cs : List Word) (i : Nat) (c : Char) : Nat :=
  (cs.filter (fun w => w[i]? = some c)).length

/-- The positional-frequency tiebreaker `Σᵢ pos_freq[i][word[i]] / n`. -/
def posScore (cs : List Word) (w : Word) : ℚ :=
  ((w.enum).map (fun p => (posCount cs p.1 p.2 : ℚ) / cs.length)).sum

/-- The untested-letter coverage score: each first occurrence of a letter
of `w` that is not yet tested adds `len(untested) - untested.index(ch)`;
a letter outside the priority list hits Python's caught `ValueError` and
adds nothing. -/
def untestedScore (untested tested : List Char) (w : Word) : Nat :=
  (w.foldl
    (fun (acc : Nat × List Char) ch =>
      if ch ∈ acc.2 then acc
      else
        (acc.1 +
          (if ch ∈ tested then 0
           else if ch ∈ untested then untested.length - untested.indexOf ch else 0),
         acc.2 ++ [ch]))
    (0, [])).1

/-- The letter-priority scan shared verbatim by
`simulate.human_heuristic_guess`, `improved_strategy.improved_human_guess`,
`strategy_v2.improved_guess` and `final_simulation.improved_guess`: score
each candidate by `untested_score * 100 + pos_score` starting from
`best_score = -1`, keeping the first strict improvement.  (The sources hoist
`pos_freq` out of the loop; `posScore` recomputes the same values.) -/
def priorityHeuristicPick (candidates : List Word) (tested : List Char) : Option Word :=
  let untested := LETTER_PRIORITY.filter (fun ch => ch ∉ tested)
  (candidates.foldl
    (fun (best : Option Word × ℚ) w =>
      let score := (untestedScore untested tested w : ℚ) * 100 + posScore candidates w
      if score > best.2 then (some w, score) else best)
    (none, -1)).1

/-- `simulate.human_heuristic_guess`; `all_guesses`, `green_known` and
`yellow_known` are parameters the source body never reads. -/
def human_heuristic_guess (candidates allGuesses : List Word) (tested : List Char)
    (greens : List (Option Char)) (yellows : List (List Char)) : Option Word :=
  if candidates.length ≤ 2 then candidates.head?
  else priorityHeuristicPick candidates tested

/-- `improved_strategy.find_varying_positions` (the same dict is built
inline in `strategy_v2.improved_guess`): positions 0–4 at which more than
one distinct letter occurs, with the letters seen there. -/
def lettersAt (cs : List Word) (pos : Nat) : List Char :=
  (cs.map (fun w => w.getD pos ' ')).dedup

def find_varying_positions (cs : List Word) : List (Nat × List Char) :=
  (List.range 5).filterMap (fun pos =>
    let ls := lettersAt cs pos
    if 1 < ls.length then some (pos, ls) else none)

/-- `improved_strategy.detect_one_position_trap`; the Python triple
`(True, pos, letters) / (False, None, None)` becomes an `Option`. -/
def detect_one_position_trap (cs : List Word) : Option (Nat × List Char) :=
  match find_varying_positions cs with
  | [v] => some v
  | [v1, v2] =>
    if 3 ≤ v1.2.length ∧ v2.2.length ≤ 2 then some v1
    else if 3 ≤ v2.2.length ∧ v1.2.length ≤ 2 then some v2
    else none
  | _ => none

/-- `improved_strategy.find_discriminator`: scan the candidates for the
word covering the most disputed letters (`target_pos` is accepted but never
read by the source body); the initial state models
`best_word = None, best_coverage = 0, best_is_candidate = False`. -/
def find_discriminator (candidates allValid : List Word) (tpos : Nat)
    (tletters : List Char) : Option Word :=
  (candidates.foldl
    (fun (best : Option Word × Nat × Bool) w =>
      let coverage := (tletters.filter (fun c => c ∈ w)).length
      let isCand : Bool := decide (w ∈ candidates)
      if coverage > best.2.1 ∨ (coverage = best.2.1 ∧ isCand = true ∧ best.2.2 = false)
      then (some w, coverage, isCand) else best)
    (none, 0, false)).1

/-- The trap branch of `improved_strategy.improved_human_guess`
(`is_trap and len(candidates) >= 4`, then `if disc: return disc`, where
`if disc:` is Python truthiness — `None` and the empty string fall
through). `some d` means the branch returns `d`; `none` means fall through
to the standard heuristic. -/
def trapDiscriminator (candidates allGuesses : List Word) : Option Word :=
  match detect_one_position_trap candidates with
  | some (tpos, tletters) =>
    if 4 ≤ candidates.length then
      match find_discriminator candidates allGuesses tpos tletters with
      | some d => if d = [] then none else some d
      | none => none
    else none
  | none => none

/-- `improved_strategy.improved_human_guess`. -/
def improved_human_guess (candidates allGuesses : List Word) (tested : List Char) :
    Option Word :=
  if candidates.length ≤ 2 then candidates.head?
  else
    match trapDiscriminator candidates allGuesses with
    | some d => some d
    | none => priorityHeuristicPick candidates tested

/-- The `expected_information` scan over candidates used for ≤ 20
candidates in `strategy_v2.improved_guess` and
`final_simulation.improved_guess` (`best_info = -1`, keep the first strict
improvement); entropy comparison via the exact reversed `infoKey` order. -/
def infoPick (cs : List Word) : Option Word :=
  (cs.foldl
    (fun (best : Option (Word × Nat)) w =>
      let key := infoKey w cs
      match best with
      | none => some (w, key)
      | some (bw, bk) => if key < bk then some (w, key) else some (bw, bk))
    none).map (fun b => b.1)

/-- `strategy_v2.improved_guess`: trap-style branch when at most two
positions vary and there are ≥ 4 candidates (`+1` for a direct positional
test, `+0.3` — exactly `3/10` here — per distinct ambiguous letter
contained), info scan for ≤ 20 candidates, letter-priority heuristic
otherwise. -/
def improved_guess (candidates : List Word) (tested : List Char) : Option Word :=
  if candidates.length ≤ 2 then candidates.head?
  else
    let varying := find_varying_positions candidates
    if varying.length ≤ 2 ∧ 4 ≤ candidates.length then
      (candidates.foldl
        (fun (best : Option Word × ℚ) w =>
          let score := varying.foldl
            (fun (s : ℚ) pv =>
              s + (if w.getD pv.1 ' ' ∈ pv.2 then 1 else 0) +
                ((w.dedup.filter (fun ch => ch ∈ pv.2)).length : ℚ) * (3 / 10))
            0
          if score > best.2 then (some w, score) else best)
        (none, -1)).1
    else if candidates.length ≤ 20 then infoPick candidates
    else priorityHeuristicPick candidates tested

/-- `final_simulation.improved_guess` (same name inside that file): no trap
branch — first candidate for ≤ 2, info scan for ≤ 20, letter-priority
heuristic otherwise. -/
def improved_guess_final (candidates : List Word) (tested : List Char) : Option Word :=
  if candidates.length ≤ 2 then candidates.head?
  else if candidates.length ≤ 20 then infoPick candidates
  else priorityHeuristicPick candidates tested

/-- `simulate.best_guess_by_expected_remaining`: minimize
`expected_remaining` with tie-break `rem == best_rem and is_cand`; the
initial `best_rem = float('inf')` — above every finite value — is the
`none` state, which the first pool word always replaces. -/
def best_guess_by_expected_remaining (candidates : List Word)
    (valid_guesses : Option (List Word)) : Option Word :=
  if candidates.length ≤ 2 then candidates.head?
  else
    let pool := match valid_guesses with
      | some (v :: vs) => v :: vs
      | _ => candidates
    (pool.foldl
      (fun (best : Option (Word × ℚ)) w =>
        let rem := expected_remaining w candidates
        let isCand : Bool := decide (w ∈ candidates)
        match best with
        | none => some (w, rem)
        | some (bw, br) =>
          if rem < br ∨ (rem = br ∧ isCand = true) then some (w, rem) else some (bw, br))
      none).map (fun b => b.1)

/-! ## Selector membership lemmas (claim C10) -/

theorem scorepick_mem (f : Word → ℚ) (cs : List Word) :
    ∀ (l : List Word) (b : Option Word × ℚ),
      (∀ w ∈ l, w ∈ cs) → (∀ w ∈ l, 0 ≤ f w) →
      ((∃ v, b.1 = some v ∧ v ∈ cs) ∨ (b.1 = none ∧ b.2 = -1 ∧ l ≠ [])) →
      ∃ v, (l.foldl (fun best w => if f w > best.2 then (some w, f w) else best) b).1 =
        some v ∧ v ∈ cs := by
  intro l
  induction l with
  | nil =>
    intro b _ _ hb
    rcases hb with ⟨v, hv, hm⟩ | ⟨_, _, hne⟩
    · exact ⟨v, hv, hm⟩
    · exact absurd rfl hne
  | cons x xs ih =>
    intro b hsub hpos hb
    simp only [List.foldl_cons]
    apply ih _ (fun w hw => hsub w (List.mem_cons_of_mem _ hw))
      (fun w hw => hpos w (List.mem_cons_of_mem _ hw))
    by_cases hc : f x > b.2
    · left
      exact ⟨x, by simp [hc], hsub x (List.mem_cons_self _ _)⟩
    · rcases hb with ⟨v, hv, hm⟩ | ⟨h1, h2, _⟩
      · left
        refine ⟨v, ?_, hm⟩
        simp [hc]
        exact hv
      · exfalso
        have h0 := hpos x (List.mem_cons_self _ _)
        rw [h2] at hc
        have : f x > (-1 : ℚ) := by linarith
        exact hc this

theorem posScore_nonneg (cs : List Word) (w : Word) : (0 : ℚ) ≤ posScore cs w := by
  apply List.sum_nonneg
  intro q hq
  obtain ⟨p, _, rfl⟩ := List.mem_map.mp hq
  positivity

theorem priorityHeuristicPick_mem (cs : List Word) (tested : List Char) (h : cs ≠ []) :
    ∃ v, priorityHeuristicPick cs tested = some v ∧ v ∈ cs := by
  unfold priorityHeuristicPick
  have hpos : ∀ w ∈ cs,
      (0 : ℚ) ≤ (untestedScore (LETTER_PRIORITY.filter (fun ch => ch ∉ tested))
        tested w : ℚ) * 100 + posScore cs w := by
    intro w _
    have h1 : (0 : ℚ) ≤ (untestedScore (LETTER_PRIORITY.filter (fun ch => ch ∉ tested))
        tested w : ℚ) := by positivity
    have h2 := posScore_nonneg cs w
    linarith
  exact scorepick_mem
    (fun w => (untestedScore (LETTER_PRIORITY.filter (fun ch => ch ∉ tested)) tested w : ℚ)
      * 100 + posScore cs w) cs cs (none, -1) (fun w hw => hw) hpos (Or.inr ⟨rfl, rfl, h⟩)

theorem human_heuristic_guess_mem (cs allG : List Word) (tested : List Char)
    (greens : List (Option Char)) (yellows : List (List Char)) (h : cs ≠ []) :
    ∃ v, human_heuristic_guess cs allG tested greens yellows = some v ∧ v ∈ cs := by
  unfold human_heuristic_guess
  split
  · rcases cs with _ | ⟨x, xs⟩
    · exact absurd rfl h
    · exact ⟨x, rfl, List.mem_cons_self _ _⟩
  · exact priorityHeuristicPick_mem cs tested h

theorem find_discriminator_mem (cs allValid : List Word) (tpos : Nat)
    (tletters : List Char) (h : cs ≠ []) :
    ∃ v, find_discriminator cs allValid tpos tletters = some v ∧ v ∈ cs := by
  unfold find_discriminator
  have aux : ∀ (l : List Word) (b : Option Word × Nat × Bool),
      (∀ w ∈ l, w ∈ cs) →
      ((∃ v, b.1 = some v ∧ v ∈ cs) ∨ (b.1 = none ∧ b.2.1 = 0 ∧ b.2.2 = false ∧ l ≠ [])) →
      ∃ v, (l.foldl
        (fun (best : Option Word × Nat × Bool) w =>
          let coverage := (tletters.filter (fun c => c ∈ w)).length
          let isCand : Bool := decide (w ∈ cs)
          if coverage > best.2.1 ∨ (coverage = best.2.1 ∧ isCand = true ∧ best.2.2 = false)
          then (some w, coverage, isCand) else best) b).1 = some v ∧ v ∈ cs := by
    intro l
    induction l with
    | nil =>
      intro b _ hb
      rcases hb with ⟨v, hv, hm⟩ | ⟨_, _, _, hne⟩
      · exact ⟨v, hv, hm⟩
      · exact absurd rfl hne
    | cons x xs ih =>
      intro b hsub hb
      simp only [List.foldl_cons]
      apply ih _ (fun w hw => hsub w (List.mem_cons_of_mem _ hw))
      split
      case isTrue hcond =>
        left
        exact ⟨x, rfl, hsub x (List.mem_cons_self _ _)⟩
      case isFalse hcond =>
        rcases hb with ⟨v, hv, hm⟩ | ⟨h1, h2, h3, _⟩
        · left
          exact ⟨v, hv, hm⟩
        · exfalso
          apply hcond
          by_cases hcov : (tletters.filter (fun c => c ∈ x)).length > b.2.1
          · exact Or.inl hcov
          · refine Or.inr ⟨by omega, ?_, h3⟩
            exact decide_eq_true (hsub x (List.mem_cons_self _ _))
  exact aux cs (none, 0, false) (fun w hw => hw) (Or.inr ⟨rfl, rfl, rfl, h⟩)

theorem trapDiscriminator_mem (cs allG : List Word) (d : Word)
    (hd : trapDiscriminator cs allG = some d) : d ∈ cs := by
  unfold trapDiscriminator at hd
  split at hd
  case h_1 tpos tletters _ =>
    split at hd
    · split at hd
      case h_1 dd heqd =>
        split at hd
        · exact absurd hd (by simp)
        · have hdd : dd = d := by
            injection hd
          subst hdd
          by_cases hcs : cs = []
          · subst hcs
            simp [find_discriminator] at heqd
          · obtain ⟨v, hv, hm⟩ := find_discriminator_mem cs allG tpos tletters hcs
            rw [hv] at heqd
            injection heqd with heq
            subst heq
            exact hm
      case h_2 => exact absurd hd (by simp)
    · exact absurd hd (by simp)
  case h_2 => exact absurd hd (by simp)

theorem improved_human_guess_mem (cs allG : List Word) (tested : List Char) (h : cs ≠ []) :
    ∃ v, improved_human_guess cs allG tested = some v ∧ v ∈ cs := by
  unfold improved_human_guess
  split
  · rcases cs with _ | ⟨x, xs⟩
    · exact absurd rfl h
    · exact ⟨x, rfl, List.mem_cons_self _ _⟩
  · split
    case h_1 d hd => exact ⟨d, rfl, trapDiscriminator_mem cs allG d hd⟩
    case h_2 => exact priorityHeuristicPick_mem cs tested h

theorem infoPick_mem (cs : List Word) (h : cs ≠ []) :
    ∃ v, infoPick cs = some v ∧ v ∈ cs := by
  unfold infoPick
  have aux : ∀ (l : List Word) (b : Option (Word × Nat)),
      (∀ w ∈ l, w ∈ cs) → ((∃ v k, b = some (v, k) ∧ v ∈ cs) ∨ (b = none ∧ l ≠ [])) →
      ∃ v k, l.foldl
        (fun (best : Option (Word × Nat)) w =>
          let key := infoKey w cs
          match best with
          | none => some (w, key)
          | some (bw, bk) => if key < bk then some (w, key) else some (bw, bk)) b =
        some (v, k) ∧ v ∈ cs := by
    intro l
    induction l with
    | nil =>
      intro b _ hb
      rcases hb with ⟨v, k, hv, hm⟩ | ⟨_, hne⟩
      · exact ⟨v, k, hv, hm⟩
      · exact absurd rfl hne
    | cons x xs ih =>
      intro b hsub hb
      simp only [List.foldl_cons]
      apply ih _ (fun w hw => hsub w (List.mem_cons_of_mem _ hw))
      left
      rcases hb with ⟨v, k, hv, hm⟩ | ⟨hnone, _⟩
      · subst hv
        by_cases hc : infoKey x cs < k
        · exact ⟨x, infoKey x cs, by simp [hc], hsub x (List.mem_cons_self _ _)⟩
        · exact ⟨v, k, by simp [hc], hm⟩
      · subst hnone
        exact ⟨x, infoKey x cs, rfl, hsub x (List.mem_cons_self _ _)⟩
  obtain ⟨v, k, hv, hm⟩ := aux cs none (fun w hw => hw) (Or.inr ⟨rfl, h⟩)
  exact ⟨v, by rw [hv]; rfl, hm⟩

theorem varyScore_nonneg (w : Word) (l : List (Nat × List Char)) :
    ∀ s : ℚ, 0 ≤ s →
      0 ≤ l.foldl
        (fun (s : ℚ) pv =>
          s + (if w.getD pv.1 ' ' ∈ pv.2 then 1 else 0) +
            ((w.dedup.filter (fun ch => ch ∈ pv.2)).length : ℚ) * (3 / 10)) s := by
  induction l with
  | nil => intro s hs; exact hs
  | cons pv rest ih =>
    intro s hs
    simp only [List.foldl_cons]
    apply ih
    have h1 : (0 : ℚ) ≤ (if w.getD pv.1 ' ' ∈ pv.2 then (1 : ℚ) else 0) := by
      split <;> norm_num
    have h2 : (0 : ℚ) ≤
        ((w.dedup.filter (fun ch => ch ∈ pv.2)).length : ℚ) * (3 / 10) := by
      positivity
    linarith

theorem improved_guess_mem (cs : List Word) (tested : List Char) (h : cs ≠ []) :
    ∃ v, improved_guess cs tested = some v ∧ v ∈ cs := by
  unfold improved_guess
  split
  · rcases cs with _ | ⟨x, xs⟩
    · exact absurd rfl h
    · exact ⟨x, rfl, List.mem_cons_self _ _⟩
  · show ∃ v,
      (if (find_varying_positions cs).length ≤ 2 ∧ 4 ≤ cs.length then
        (cs.foldl
          (fun (best : Option Word × ℚ) w =>
            let score := (find_varying_positions cs).foldl
              (fun (s : ℚ) pv =>
                s + (if w.getD pv.1 ' ' ∈ pv.2 then 1 else 0) +
                  ((w.dedup.filter (fun ch => ch ∈ pv.2)).length : ℚ) * (3 / 10))
              0
            if score > best.2 then (some w, score) else best)
          (none, -1)).1
      else if cs.length ≤ 20 then infoPick cs
      else priorityHeuristicPick cs tested) = some v ∧ v ∈ cs
    split
    · exact scorepick_mem
        (fun w => (find_varying_positions cs).foldl
          (fun (s : ℚ) pv =>
            s + (if w.getD pv.1 ' ' ∈ pv.2 then 1 else 0) +
              ((w.dedup.filter (fun ch => ch ∈ pv.2)).length : ℚ) * (3 / 10))
          0) cs cs (none, -1) (fun w hw => hw)
        (fun w _ => varyScore_nonneg w (find_varying_positions cs) 0 le_rfl)
        (Or.inr ⟨rfl, rfl, h⟩)
    · split
      · exact infoPick_mem cs h
      · exact priorityHeuristicPick_mem cs tested h

theorem improved_guess_final_mem (cs : List Word) (tested : List Char) (h : cs ≠ []) :
    ∃ v, improved_guess_final cs tested = some v ∧ v ∈ cs := by
  unfold improved_guess_final
  split
  · rcases cs with _ | ⟨x, xs⟩
    · exact absurd rfl h
    · exact ⟨x, rfl, List.mem_cons_self _ _⟩
  · split
    · exact infoPick_mem cs h
    · exact priorityHeuristicPick_mem cs tested h

theorem best_guess_by_info_none_mem (cs : List Word) (h : cs ≠ []) :
    ∃ w, best_guess_by_info cs none = some w ∧ w ∈ cs := by
  by_cases hle : cs.length ≤ 2
  · rcases cs with _ | ⟨x, xs⟩
    · exact absurd rfl h
    · refine ⟨x, ?_, List.mem_cons_self _ _⟩
      unfold best_guess_by_info
      rw [if_pos hle]
      rfl
  · have hbg : best_guess_by_info cs none =
        (cs.foldl (infoBest cs) none).map (fun b => b.1) := by
      unfold best_guess_by_info
      rw [if_neg hle]
    have hinv := infoScan_final cs cs
    cases hst : cs.foldl (infoBest cs) none with
    | none =>
      rw [hst] at hinv
      have hcontra : cs = [] := hinv
      exact absurd hcontra h
    | some b =>
      obtain ⟨bw, bk, bc⟩ := b
      rw [hst] at hinv
      exact ⟨bw, by rw [hbg, hst]; rfl, hinv.1⟩

theorem best_guess_by_expected_remaining_none_mem (cs : List Word) (h : cs ≠ []) :
    ∃ w, best_guess_by_expected_remaining cs none = some w ∧ w ∈ cs := by
  by_cases hle : cs.length ≤ 2
  · rcases cs with _ | ⟨x, xs⟩
    · exact absurd rfl h
    · refine ⟨x, ?_, List.mem_cons_self _ _⟩
      unfold best_guess_by_expected_remaining
      rw [if_pos hle]
      rfl
  · have hbg : best_guess_by_expected_remaining cs none =
        (cs.foldl
          (fun (best : Option (Word × ℚ)) w =>
            let rem := expected_remaining w cs
            let isCand : Bool := decide (w ∈ cs)
            match best with
            | none => some (w, rem)
            | some (bw, br) =>
              if rem < br ∨ (rem = br ∧ isCand = true) then some (w, rem)
              else some (bw, br)) none).map (fun b => b.1) := by
      unfold best_guess_by_expected_remaining
      rw [if_neg hle]
    have aux : ∀ (l : List Word) (b : Option (Word × ℚ)),
        (∀ w ∈ l, w ∈ cs) → ((∃ v k, b = some (v, k) ∧ v ∈ cs) ∨ (b = none ∧ l ≠ [])) →
        ∃ v k, l.foldl
          (fun (best : Option (Word × ℚ)) w =>
            let rem := expected_remaining w cs
            let isCand : Bool := decide (w ∈ cs)
            match best with
            | none => some (w, rem)
            | some (bw, br) =>
              if rem < br ∨ (rem = br ∧ isCand = true) then some (w, rem)
              else some (bw, br)) b = some (v, k) ∧ v ∈ cs := by
      intro l
      induction l with
      | nil =>
        intro b _ hb
        rcases hb with ⟨v, k, hv, hm⟩ | ⟨_, hne⟩
        · exact ⟨v, k, hv, hm⟩
        · exact absurd rfl hne
      | cons x xs ih =>
        intro b hsub hb
        simp only [List.foldl_cons]
        apply ih _ (fun w hw => hsub w (List.mem_cons_of_mem _ hw))
        left
        rcases hb with ⟨v, k, hv, hm⟩ | ⟨hnone, _⟩
        · subst hv
          by_cases hc : expected_remaining x cs < k ∨
              (expected_remaining x cs = k ∧ decide (x ∈ cs) = true)
          · refine ⟨x, expected_remaining x cs, ?_, hsub x (List.mem_cons_self _ _)⟩
            show (if expected_remaining x cs < k ∨
                (expected_remaining x cs = k ∧ decide (x ∈ cs) = true) then
                some (x, expected_remaining x cs) else some (v, k)) =
              some (x, expected_remaining x cs)
            rw [if_pos hc]
          · refine ⟨v, k, ?_, hm⟩
            show (if expected_remaining x cs < k ∨
                (expected_remaining x cs = k ∧ decide (x ∈ cs) = true) then
                some (x, expected_remaining x cs) else some (v, k)) = some (v, k)
            rw [if_neg hc]
        · subst hnone
          exact ⟨x, expected_remaining x cs, rfl, hsub x (List.mem_cons_self _ _)⟩
    obtain ⟨v, k, hv, hm⟩ := aux cs none (fun w hw => hw) (Or.inr ⟨rfl, h⟩)
    exact ⟨v, by rw [hbg, hv]; rfl, hm⟩

/-- **C10.** Every selector that draws from the candidate list — the
entropy maximizer called without a separate pool, the human heuristic, the
improved human heuristic, and `strategy_v2.improved_guess` — returns `some`
word that is a member of the (non-empty) candidate list, so guesses built
from a filtered candidate set are hard-mode-legal by construction. -/
theorem selectors_stay_in_candidates (cs allG : List Word) (tested : List Char)
    (greens : List (Option Char)) (yellows : List (List Char))
    (hne : cs ≠ []) (h5 : ∀ w ∈ cs, w.length = 5) :
    (∃ w, best_guess_by_info cs none = some w ∧ w ∈ cs)
    ∧ (∃ w, human_heuristic_guess cs allG tested greens yellows = some w ∧ w ∈ cs)
    ∧ (∃ w, improved_human_guess cs allG tested = some w ∧ w ∈ cs)
    ∧ (∃ w, improved_guess cs tested = some w ∧ w ∈ cs) :=
  ⟨best_guess_by_info_none_mem cs hne,
   human_heuristic_guess_mem cs allG tested greens yellows hne,
   improved_human_guess_mem cs allG tested hne,
   improved_guess_mem cs tested hne⟩

/-- Witness for C10 at a concrete four-word candidate list. -/
theorem selectors_stay_in_candidates_witness :
    (∃ w, best_guess_by_info
        ["abcde".toList, "abcxy".toList, "zbcde".toList, "zzzzz".toList] none =
        some w ∧ w ∈ (["abcde".toList, "abcxy".toList, "zbcde".toList,
          "zzzzz".toList] : List Word))
    ∧ (∃ w, human_heuristic_guess
        ["abcde".toList, "abcxy".toList, "zbcde".toList, "zzzzz".toList] [] ['q']
        (List.replicate 5 none) (List.replicate 5 []) =
        some w ∧ w ∈ (["abcde".toList, "abcxy".toList, "zbcde".toList,
          "zzzzz".toList] : List Word))
    ∧ (∃ w, improved_human_guess
        ["abcde".toList, "abcxy".toList, "zbcde".toList, "zzzzz".toList] [] ['q'] =
        some w ∧ w ∈ (["abcde".toList, "abcxy".toList, "zbcde".toList,
          "zzzzz".toList] : List Word))
    ∧ (∃ w, improved_guess
        ["abcde".toList, "abcxy".toList, "zbcde".toList, "zzzzz".toList] ['q'] =
        some w ∧ w ∈ (["abcde".toList, "abcxy".toList, "zbcde".toList,
          "zzzzz".toList] : List Word)) :=
  selectors_stay_in_candidates
    ["abcde".toList, "abcxy".toList, "zbcde".toList, "zzzzz".toList] [] ['q']
    (List.replicate 5 none) (List.replicate 5 []) (by decide) (by decide)

/-! ## Simulation Driver (`simulate.play_game`, claims C4 and C9) -/

/-- `tested_letters.add(ch)` for each letter of the guess. -/
def testedAdd (tested : List Char) (w : Word) : List Char :=
  w.foldl (fun t c => if c ∈ t then t else t ++ [c]) tested

/-- `green_known[i] = ch` for each green position of the feedback. -/
def updateGreens (greens : List (Option Char)) (guess : Word) (fb : Feedback) :
    List (Option Char) :=
  (List.range 5).foldl
    (fun gr i => if fb.getD i 0 = 2 then gr.set i (some (guess.getD i ' ')) else gr)
    greens

/-- `yellow_known[i].add(ch)` for each yellow position of the feedback. -/
def updateYellows (yellows : List (List Char)) (guess : Word) (fb : Feedback) :
    List (List Char) :=
  (List.range 5).foldl
    (fun ys i =>
      if fb.getD i 0 = 1 then ys.set i ((ys.getD i []) ++ [guess.getD i ' ']) else ys)
    yellows

/-- The strategy dispatch of `simulate.play_game` for turns ≥ 2; an
unrecognized name raises `ValueError(f"Unknown strategy: {strategy}")` —
note the message names only the unknown strategy, not the valid set.
The inner `Option` is the selector's return value (`None` would only crash
later in Python, and is impossible for non-empty candidates). -/
def selectGuess (strategy : String) (candidates allGuesses : List Word)
    (tested : List Char) (greens : List (Option Char)) (yellows : List (List Char)) :
    Except String (Option Word) :=
  if strategy = "info" then .ok (best_guess_by_info candidates none)
  else if strategy = "expected_remaining" then
    .ok (best_guess_by_expected_remaining candidates none)
  else if strategy = "human" then
    .ok (human_heuristic_guess candidates allGuesses tested greens yellows)
  else .error ("Unknown strategy: " ++ strategy)

/-- The turn loop of `simulate.play_game` over the remaining turn numbers
(`for turn in range(1, max_guesses + 1)`); falling off the loop returns
`(max_guesses, guesses, False)`. -/
def play_gameGo (target : Word) (strategy : String) (allGuesses : List Word)
    (opener : Word) (maxG : Nat) :
    List Nat → List Word → List (Word × Feedback) → List Char →
    List (Option Char) → List (List Char) →
    Except String (Nat × List (Word × Feedback) × Bool)
  | [], _, gs, _, _, _ => .ok (maxG, gs, false)
  | turn :: rest, cands, gs, tested, greens, yellows =>
    match (if turn = 1 then Except.ok (some opener)
      else selectGuess strategy cands allGuesses tested greens yellows) with
    | .error e => .error e
    | .ok none => .error "selector returned no word"
    | .ok (some guess) =>
      let fb := compute_feedback guess target
      let gs' := gs ++ [(guess, fb)]
      let tested' := testedAdd tested guess
      let greens' := updateGreens greens guess fb
      let yellows' := updateYellows yellows guess fb
      if fb = allGreen then .ok (turn, gs', true)
      else
        let cands' := filter_candidates cands guess fb
        if cands'.length = 0 then .ok (turn, gs', false)
        else play_gameGo target strategy allGuesses opener maxG rest cands' gs'
          tested' greens' yellows'

/-- `simulate.play_game`: candidates start as the full answer list; tested
letters, green and yellow knowledge start empty. -/
def play_game (target : Word) (strategy : String) (all_answers allGuesses : List Word)
    (opener : Word) (maxG : Nat) : Except String (Nat × List (Word × Feedback) × Bool) :=
  play_gameGo target strategy allGuesses opener maxG (List.range' 1 maxG) all_answers
    [] [] (List.replicate 5 none) (List.replicate 5 [])

theorem selectGuess_ok (strategy : String) (cands allG : List Word) (tested : List Char)
    (greens : List (Option Char)) (yellows : List (List Char))
    (hs : strategy = "info" ∨ strategy = "expected_remaining" ∨ strategy = "human")
    (hc : cands ≠ []) :
    ∃ w, selectGuess strategy cands allG tested greens yellows = .ok (some w) := by
  rcases hs with hs | hs | hs <;> subst hs <;> unfold selectGuess
  · obtain ⟨w, hw, _⟩ := best_guess_by_info_none_mem cands hc
    rw [if_pos rfl, hw]
    exact ⟨w, rfl⟩
  · obtain ⟨w, hw, _⟩ := best_guess_by_expected_remaining_none_mem cands hc
    rw [if_neg (by decide), if_pos rfl, hw]
    exact ⟨w, rfl⟩
  · obtain ⟨w, hw, _⟩ := human_heuristic_guess_mem cands allG tested greens yellows hc
    rw [if_neg (by decide), if_neg (by decide), if_pos rfl, hw]
    exact ⟨w, rfl⟩

set_option maxHeartbeats 1600000 in
theorem play_gameGo_spec (target : Word) (strategy : String) (allG : List Word)
    (opener : Word) (maxG : Nat)
    (hs : strategy = "info" ∨ strategy = "expected_remaining" ∨ strategy = "human") :
    ∀ (k : Nat) (cands : List Word) (gs : List (Word × Feedback)) (tested : List Char)
      (greens : List (Option Char)) (yellows : List (List Char)),
      (∀ p ∈ gs, p.2 ≠ allGreen) →
      (gs ≠ [] → cands ≠ []) →
      gs.length + k ≤ maxG →
      ∃ n gs' solved,
        play_gameGo target strategy allG opener maxG (List.range' (gs.length + 1) k)
          cands gs tested greens yellows = .ok (n, gs ++ gs', solved) ∧
        n ≤ maxG ∧
        (solved = true → n = (gs ++ gs').length ∧ 1 ≤ n ∧
          ((gs ++ gs').getD (n - 1) ([], [])).2 = allGreen ∧
          ∀ j, j + 1 < n → ((gs ++ gs').getD j ([], [])).2 ≠ allGreen) := by
  intro k
  induction k with
  | zero =>
    intro cands gs tested greens yellows hgs hc hlen
    refine ⟨maxG, [], false, ?_, le_refl _, by simp⟩
    simp [play_gameGo, List.range']
  | succ k ih =>
    intro cands gs tested greens yellows hgs hc hlen
    rw [show List.range' (gs.length + 1) (k + 1) =
      (gs.length + 1) :: List.range' (gs.length + 2) k from rfl]
    have hguess : ∃ guess,
        (if gs.length + 1 = 1 then Except.ok (some opener)
          else selectGuess strategy cands allG tested greens yellows) =
          Except.ok (some guess) ∧ (gs = [] → guess = opener) := by
      by_cases hnil : gs = []
      · subst hnil
        exact ⟨opener, by simp, fun _ => rfl⟩
      · have hlen1 : gs.length ≠ 0 := fun h0 => hnil (List.length_eq_zero.mp h0)
        rw [if_neg (by omega)]
        obtain ⟨w, hw⟩ := selectGuess_ok strategy cands allG tested greens yellows hs
          (hc hnil)
        exact ⟨w, hw, fun h0 => absurd h0 hnil⟩
    obtain ⟨guess, hsel, _⟩ := hguess
    have hred : play_gameGo target strategy allG opener maxG
        ((gs.length + 1) :: List.range' (gs.length + 2) k) cands gs tested greens yellows =
        (if compute_feedback guess target = allGreen then
          Except.ok (gs.length + 1, gs ++ [(guess, compute_feedback guess target)], true)
        else if (filter_candidates cands guess (compute_feedback guess target)).length = 0
        then
          Except.ok (gs.length + 1, gs ++ [(guess, compute_feedback guess target)], false)
        else
          play_gameGo target strategy allG opener maxG (List.range' (gs.length + 2) k)
            (filter_candidates cands guess (compute_feedback guess target))
            (gs ++ [(guess, compute_feedback guess target)]) (testedAdd tested guess)
            (updateGreens greens guess (compute_feedback guess target))
            (updateYellows yellows guess (compute_feedback guess target))) := by
      rw [play_gameGo, hsel]
    rw [hred]
    by_cases hwin : compute_feedback guess target = allGreen
    · refine ⟨gs.length + 1, [(guess, compute_feedback guess target)], true, ?_,
        by omega, ?_⟩
      · rw [if_pos hwin]
      · intro _
        refine ⟨by simp, by omega, ?_, ?_⟩
        · have hlast : (gs ++ [(guess, compute_feedback guess target)]).getD
              gs.length ([], []) = (guess, compute_feedback guess target) := by
            rw [List.getD_eq_getElem?_getD, List.getElem?_append_right (le_refl _)]
            simp
          simp only [Nat.add_sub_cancel]
          rw [hlast]
          exact hwin
        · intro j hj
          have hjlt : j < gs.length := by omega
          have hpre : (gs ++ [(guess, compute_feedback guess target)]).getD j ([], []) =
              gs.getD j ([], []) := by
            rw [List.getD_eq_getElem?_getD, List.getD_eq_getElem?_getD,
              List.getElem?_append_left hjlt]
          rw [hpre]
          have hmem : gs.getD j ([], []) ∈ gs := by
            rw [List.getD_eq_getElem gs ([], []) hjlt]
            exact gs.getElem_mem hjlt
          exact hgs _ hmem
    · rw [if_neg hwin]
      by_cases hempty : (filter_candidates cands guess (compute_feedback guess target)).length = 0
      · refine ⟨gs.length + 1, [(guess, compute_feedback guess target)], false, ?_,
          by omega, by simp⟩
        rw [if_pos hempty]
      · rw [if_neg hempty]
        have hne : filter_candidates cands guess (compute_feedback guess target) ≠ [] := by
          intro h0
          rw [h0] at hempty
          exact hempty rfl
        have hgs' : ∀ p ∈ gs ++ [(guess, compute_feedback guess target)],
            p.2 ≠ allGreen := by
          intro p hp
          rcases List.mem_append.mp hp with hp | hp
          · exact hgs p hp
          · simp at hp
            subst hp
            exact hwin
        have hrec := ih (filter_candidates cands guess (compute_feedback guess target))
          (gs ++ [(guess, compute_feedback guess target)])
          (testedAdd tested guess) (updateGreens greens guess (compute_feedback guess target))
          (updateYellows yellows guess (compute_feedback guess target)) hgs'
          (fun _ => hne) (by simp; omega)
        obtain ⟨n, gs'', solved, hgo, hnle, hsol⟩ := hrec
        refine ⟨n, (guess, compute_feedback guess target) :: gs'', solved, ?_, hnle, ?_⟩
        · rw [show (gs ++ [(guess, compute_feedback guess target)]).length + 1 =
            gs.length + 2 by simp] at hgo
          rw [show gs ++ (guess, compute_feedback guess target) :: gs'' =
            (gs ++ [(guess, compute_feedback guess target)]) ++ gs'' by simp]
          exact hgo
        · rw [show gs ++ (guess, compute_feedback guess target) :: gs'' =
            (gs ++ [(guess, compute_feedback guess target)]) ++ gs'' by simp]
          exact hsol

/-- **C4.** For every target, every recognized strategy, and any opener and
turn budget, `play_game` terminates with a result (never an exception): at
most `max_guesses` turns are reported, and when the game is Solved the
reported turn count is exactly the 1-based index of the first guess whose
feedback is all-Correct. -/
theorem play_game_terminates (target : Word) (strategy : String)
    (answers allGuesses : List Word) (opener : Word) (maxG : Nat)
    (hs : strategy ∈ (["info", "expected_remaining", "human"] : List String)) :
    ∃ n gs solved,
      play_game target strategy answers allGuesses opener maxG = .ok (n, gs, solved) ∧
      n ≤ maxG ∧
      (solved = true → n = gs.length ∧ 1 ≤ n ∧ (gs.getD (n - 1) ([], [])).2 = allGreen ∧
        ∀ j, j + 1 < n → (gs.getD j ([], [])).2 ≠ allGreen) := by
  have hs' : strategy = "info" ∨ strategy = "expected_remaining" ∨ strategy = "human" := by
    simpa using hs
  obtain ⟨n, gs', solved, hgo, hle, hsol⟩ := play_gameGo_spec target strategy allGuesses
    opener maxG hs' maxG answers [] [] (List.replicate 5 none) (List.replicate 5 [])
    (by simp) (fun h => absurd rfl h) (by simp)
  refine ⟨n, gs', solved, ?_, hle, ?_⟩
  · unfold play_game
    simpa using hgo
  · simpa using hsol

/-- Witness for C4 with the `info` strategy on a two-word corpus. -/
theorem play_game_terminates_witness :
    ∃ n gs solved,
      play_game "bbbbb".toList "info" ["bbbbb".toList, "ccccc".toList] []
        "raise".toList 6 = .ok (n, gs, solved) ∧
      n ≤ 6 ∧
      (solved = true → n = gs.length ∧ 1 ≤ n ∧ (gs.getD (n - 1) ([], [])).2 = allGreen ∧
        ∀ j, j + 1 < n → (gs.getD j ([], [])).2 ≠ allGreen) :=
  play_game_terminates "bbbbb".toList "info" ["bbbbb".toList, "ccccc".toList] []
    "raise".toList 6 (by decide)

/-- **C9 (amended).** An unrecognized strategy name raises
`ValueError("Unknown strategy: <name>")` only when turn 2 is reached — the
opener is played without a strategy check, so a first-turn solve, an empty
first filter, or `max_guesses < 2` skips the error; the message names the
unknown strategy but not the valid set.  Recognized names never raise. -/
theorem play_game_unknown_strategy (target : Word) (strategy : String)
    (answers allGuesses : List Word) (opener : Word) (maxG : Nat) :
    (strategy ∉ (["info", "expected_remaining", "human"] : List String) →
      2 ≤ maxG → target ∈ answers → compute_feedback opener target ≠ allGreen →
      play_game target strategy answers allGuesses opener maxG =
        .error ("Unknown strategy: " ++ strategy))
    ∧ (strategy ∈ (["info", "expected_remaining", "human"] : List String) →
      ∃ r, play_game target strategy answers allGuesses opener maxG = .ok r) := by
  constructor
  · intro hns h2 htgt hfb
    have hnor : ¬ (strategy = "info" ∨ strategy = "expected_remaining" ∨
        strategy = "human") := by
      simpa using hns
    obtain ⟨k, hk⟩ : ∃ k, maxG = k + 2 := ⟨maxG - 2, by omega⟩
    subst hk
    unfold play_game
    rw [show List.range' 1 (k + 2) = 1 :: 2 :: List.range' 3 k from rfl]
    have hsel1 : (if (1 : Nat) = 1 then Except.ok (some opener)
        else selectGuess strategy answers allGuesses [] (List.replicate 5 none)
          (List.replicate 5 [])) = Except.ok (some opener) := if_pos rfl
    have hred1 : play_gameGo target strategy allGuesses opener (k + 2)
        (1 :: 2 :: List.range' 3 k) answers [] [] (List.replicate 5 none)
        (List.replicate 5 []) =
        (if compute_feedback opener target = allGreen then
          Except.ok (1, [] ++ [(opener, compute_feedback opener target)], true)
        else if (filter_candidates answers opener
            (compute_feedback opener target)).length = 0 then
          Except.ok (1, [] ++ [(opener, compute_feedback opener target)], false)
        else
          play_gameGo target strategy allGuesses opener (k + 2) (2 :: List.range' 3 k)
            (filter_candidates answers opener (compute_feedback opener target))
            ([] ++ [(opener, compute_feedback opener target)]) (testedAdd [] opener)
            (updateGreens (List.replicate 5 none) opener (compute_feedback opener target))
            (updateYellows (List.replicate 5 []) opener
              (compute_feedback opener target))) := by
      rw [play_gameGo, hsel1]
    have hne : ¬ (filter_candidates answers opener
        (compute_feedback opener target)).length = 0 := by
      intro h0
      rw [List.length_eq_zero] at h0
      have hmem := (filter_candidates_mem answers opener target
        (compute_feedback opener target)).mpr ⟨htgt, rfl⟩
      rw [h0] at hmem
      exact List.not_mem_nil _ hmem
    rw [hred1, if_neg hfb, if_neg hne]
    have hsel2 : (if (2 : Nat) = 1 then Except.ok (some opener)
        else selectGuess strategy
          (filter_candidates answers opener (compute_feedback opener target)) allGuesses
          (testedAdd [] opener)
          (updateGreens (List.replicate 5 none) opener (compute_feedback opener target))
          (updateYellows (List.replicate 5 []) opener (compute_feedback opener target))) =
        Except.error ("Unknown strategy: " ++ strategy) := by
      rw [if_neg (by norm_num)]
      unfold selectGuess
      rw [if_neg (fun h => hnor (Or.inl h)),
        if_neg (fun h => hnor (Or.inr (Or.inl h))),
        if_neg (fun h => hnor (Or.inr (Or.inr h)))]
    rw [play_gameGo, hsel2]
  · intro hmem
    have hs' : strategy = "info" ∨ strategy = "expected_remaining" ∨
        strategy = "human" := by
      simpa using hmem
    obtain ⟨n, gs', solved, hgo, _, _⟩ := play_gameGo_spec target strategy allGuesses
      opener maxG hs' maxG answers [] [] (List.replicate 5 none) (List.replicate 5 [])
      (by simp) (fun h => absurd rfl h) (by simp)
    refine ⟨(n, gs', solved), ?_⟩
    unfold play_game
    simpa using hgo

/-- Witness for C9 (amended): a bogus strategy errors once turn 2 is
reached, and a recognized one returns a result. -/
theorem play_game_unknown_strategy_witness :
    play_game "bbbbb".toList "bogus" ["bbbbb".toList, "ccccc".toList] []
        "raise".toList 6 = .error ("Unknown strategy: " ++ "bogus")
    ∧ ∃ r, play_game "bbbbb".toList "human" ["bbbbb".toList, "ccccc".toList] []
        "raise".toList 6 = .ok r :=
  ⟨(play_game_unknown_strategy "bbbbb".toList "bogus" ["bbbbb".toList, "ccccc".toList]
      [] "raise".toList 6).1 (by decide) (by decide) (by decide) (by decide),
   (play_game_unknown_strategy "bbbbb".toList "human" ["bbbbb".toList, "ccccc".toList]
      [] "raise".toList 6).2 (by decide)⟩

/-- Counterexample to C9 as stated: with an unknown strategy name but a
target equal to the opener, `play_game` solves on turn 1 and raises no
error at all — the strategy dispatch (and its `ValueError`) is only reached
from turn 2 on. -/
theorem play_game_unknown_strategy_no_error :
    play_game "raise".toList "bogus" ["raise".toList] [] "raise".toList 6 =
      .ok (1, [("raise".toList, allGreen)], true) := by
  rfl

/-! ## Strategy V2 and the final simulation (claim C8) -/

/-- `guess2_table.get(prev_fb)`: lookup in the guess-2 table. -/
def lookupFB (table : List (Feedback × Word)) (fb : Feedback) : Option Word :=
  (table.find? (fun p => p.1 == fb)).map (fun p => p.2)

/-- The turn-2 guess logic of `strategy_v2.play_game_v2`, as a function of
the table-lookup result: `guess = guess2_table.get(prev_fb); if guess is
None or guess not in candidates: guess = improved_guess(...)`. -/
def tableFallback (t : Option Word) (cands : List Word) (tested : List Char) :
    Option Word :=
  match t with
  | some w => if w ∈ cands then some w else improved_guess cands tested
  | none => improved_guess cands tested

/-- The guess selection inside `strategy_v2.play_game_v2`'s turn loop: the
opener on turn 1, `tableFallback` over the table lookup keyed by the last
recorded feedback on turn 2 (the loop reads `fb_history[-1]`; `none` if no
guess was recorded), `improved_guess` from turn 3 on. -/
def v2SelectGuess (table : List (Feedback × Word)) (opener : Word)
    (turn : Nat) (cands : List Word) (gs : List (Word × Feedback))
    (tested : List Char) : Option Word :=
  if turn = 1 then some opener
  else if turn = 2 then
    match gs.getLast? with
    | none => none
    | some prev => tableFallback (lookupFB table prev.2) cands tested
  else improved_guess cands tested

/-- The turn loop of `strategy_v2.play_game_v2`: the guess of each turn is
chosen by `v2SelectGuess`; the game stops on an all-green feedback
(solved), an empty filtered candidate list, or turn exhaustion.  Only
tested letters are tracked in this file. -/
def play_game_v2Go (target : Word) (allGuesses : List Word)
    (table : List (Feedback × Word)) (opener : Word) (maxG : Nat) :
    List Nat → List Word → List (Word × Feedback) → List Char →
    Except String (Nat × List (Word × Feedback) × Bool)
  | [], _, gs, _ => .ok (maxG, gs, false)
  | turn :: rest, cands, gs, tested =>
    match v2SelectGuess table opener turn cands gs tested with
    | none => .error "selector returned no word"
    | some guess =>
      let fb := compute_feedback guess target
      let gs' := gs ++ [(guess, fb)]
      let tested' := testedAdd tested guess
      if fb = allGreen then .ok (turn, gs', true)
      else
        let cands' := filter_candidates cands guess fb
        if cands' = [] then .ok (turn, gs', false)
        else play_game_v2Go target allGuesses table opener maxG rest cands' gs' tested'

/-- `strategy_v2.play_game_v2`. -/
def play_game_v2 (target : Word) (answers allGuesses : List Word)
    (table : List (Feedback × Word)) (opener : Word) (maxG : Nat) :
    Except String (Nat × List (Word × Feedback) × Bool) :=
  play_game_v2Go target allGuesses table opener maxG (List.range' 1 maxG) answers [] []

/-- The turn-2 guess logic of `final_simulation.simulate`: `if prev_fb in
guess2_table: guess = guess2_table[prev_fb]` — the table word is used with
**no** membership check against the current candidates — else that file's
`improved_guess` variant. -/
def finalTableGuess (t : Option Word) (cands : List Word)
    (tested : List Char) : Option Word :=
  match t with
  | some w => some w
  | none => improved_guess_final cands tested

/-- The guess selection inside the `final_simulation.simulate` game loop:
the hard-coded opener `"raise"` on turn 1, `finalTableGuess` over the table
lookup on turn 2, `improved_guess` (that file's variant) from turn 3 on. -/
def finalSelectGuess (table : List (Feedback × Word)) (turn : Nat)
    (cands : List Word) (gs : List (Word × Feedback)) (tested : List Char) :
    Option Word :=
  if turn = 1 then some ("raise".toList)
  else if turn = 2 then
    match gs.getLast? with
    | none => none
    | some prev => finalTableGuess (lookupFB table prev.2) cands tested
  else improved_guess_final cands tested

/-- The per-target game loop inside `final_simulation.simulate`: the opener
is fixed to `"raise"` and the budget to six turns; the guess of each turn
is chosen by `finalSelectGuess`; there is no empty-candidate early
return. -/
def play_game_finalGo (target : Word) (table : List (Feedback × Word)) :
    List Nat → List Word → List (Word × Feedback) → List Char →
    Except String (Nat × List (Word × Feedback) × Bool)
  | [], _, gs, _ => .ok (6, gs, false)
  | turn :: rest, cands, gs, tested =>
    match finalSelectGuess table turn cands gs tested with
    | none => .error "selector returned no word"
    | some guess =>
      let fb := compute_feedback guess target
      let gs' := gs ++ [(guess, fb)]
      let tested' := testedAdd tested guess
      if fb = allGreen then .ok (turn, gs', true)
      else play_game_finalGo target table rest (filter_candidates cands guess fb)
        gs' tested'

/-- The single-target run of `final_simulation.simulate`. -/
def play_game_final (target : Word) (answers : List Word)
    (table : List (Feedback × Word)) :
    Except String (Nat × List (Word × Feedback) × Bool) :=
  play_game_finalGo target table (List.range' 1 6) answers [] []

/-- `tableFallback` on a successful lookup. -/
theorem tableFallback_some (w : Word) (cands : List Word)
    (tested : List Char) :
    tableFallback (some w) cands tested =
      if w ∈ cands then some w else improved_guess cands tested := rfl

/-- `tableFallback` on a missing table entry. -/
theorem tableFallback_none (cands : List Word) (tested : List Char) :
    tableFallback none cands tested = improved_guess cands tested := rfl

/-- Turn 1 of the V2 selector plays the opener. -/
theorem v2SelectGuess_one (table : List (Feedback × Word)) (opener : Word)
    (cands : List Word) (gs : List (Word × Feedback)) (tested : List Char) :
    v2SelectGuess table opener 1 cands gs tested = some opener := rfl

/-- Turn 2 of the V2 selector with exactly one recorded guess: the table
is consulted with that guess's feedback. -/
theorem v2SelectGuess_two (table : List (Feedback × Word)) (opener w : Word)
    (fb : Feedback) (cands : List Word) (tested : List Char) :
    v2SelectGuess table opener 2 cands [(w, fb)] tested =
      tableFallback (lookupFB table fb) cands tested := rfl

/-- From turn 3 on the V2 selector is `improved_guess`. -/
theorem v2SelectGuess_ge3 (table : List (Feedback × Word)) (opener : Word)
    (turn : Nat) (h : 3 ≤ turn) (cands : List Word)
    (gs : List (Word × Feedback)) (tested : List Char) :
    v2SelectGuess table opener turn cands gs tested =
      improved_guess cands tested := by
  unfold v2SelectGuess
  rw [if_neg (by omega), if_neg (by omega)]

/-- Totality of the V2 loop from turn 3 on. -/
theorem play_game_v2Go_ok (target : Word) (allG : List Word)
    (table : List (Feedback × Word)) (opener : Word) (maxG : Nat) :
    ∀ (k : Nat) (cands : List Word) (gs : List (Word × Feedback)) (tested : List Char),
      2 ≤ gs.length → cands ≠ [] →
      ∃ n gs' solved,
        play_game_v2Go target allG table opener maxG (List.range' (gs.length + 1) k)
          cands gs tested = .ok (n, gs ++ gs', solved) := by
  intro k
  induction k with
  | zero =>
    intro cands gs tested _ _
    refine ⟨maxG, [], false, ?_⟩
    simp [play_game_v2Go, List.range']
  | succ k ih =>
    intro cands gs tested hlen hc
    rw [show List.range' (gs.length + 1) (k + 1) =
      (gs.length + 1) :: List.range' (gs.length + 2) k from rfl]
    obtain ⟨guess, hguess, _⟩ := improved_guess_mem cands tested hc
    have hsel : v2SelectGuess table opener (gs.length + 1) cands gs tested =
        some guess := by
      rw [v2SelectGuess_ge3 table opener (gs.length + 1) (by omega)]
      exact hguess
    have hred : play_game_v2Go target allG table opener maxG
        ((gs.length + 1) :: List.range' (gs.length + 2) k) cands gs tested =
        (if compute_feedback guess target = allGreen then
          Except.ok (gs.length + 1, gs ++ [(guess, compute_feedback guess target)], true)
        else if filter_candidates cands guess (compute_feedback guess target) = [] then
          Except.ok (gs.length + 1, gs ++ [(guess, compute_feedback guess target)], false)
        else
          play_game_v2Go target allG table opener maxG (List.range' (gs.length + 2) k)
            (filter_candidates cands guess (compute_feedback guess target))
            (gs ++ [(guess, compute_feedback guess target)]) (testedAdd tested guess)) := by
      rw [play_game_v2Go, hsel]
    rw [hred]
    by_cases hwin : compute_feedback guess target = allGreen
    · exact ⟨gs.length + 1, [(guess, compute_feedback guess target)], true,
        by rw [if_pos hwin]⟩
    · rw [if_neg hwin]
      by_cases hempty : filter_candidates cands guess (compute_feedback guess target) = []
      · exact ⟨gs.length + 1, [(guess, compute_feedback guess target)], false,
          by rw [if_pos hempty]⟩
      · rw [if_neg hempty]
        have hrec := ih (filter_candidates cands guess (compute_feedback guess target))
          (gs ++ [(guess, compute_feedback guess target)]) (testedAdd tested guess)
          (by simp; omega) hempty
        obtain ⟨n, gs'', solved, hgo⟩ := hrec
        refine ⟨n, (guess, compute_feedback guess target) :: gs'', solved, ?_⟩
        rw [show (gs ++ [(guess, compute_feedback guess target)]).length + 1 =
          gs.length + 2 by simp] at hgo
        rw [show gs ++ (guess, compute_feedback guess target) :: gs'' =
          (gs ++ [(guess, compute_feedback guess target)]) ++ gs'' by simp]
        exact hgo

set_option maxHeartbeats 1600000 in
/-- **C8 (amended).** In `strategy_v2.play_game_v2` the turn-2 guess is the
table word only when the lookup succeeds *and* the word is still in the
current filtered candidate set; with no entry, or a table word no longer
among the candidates, it falls back to `improved_guess`.
`final_simulation.simulate`, by contrast, plays the table word whenever an
entry exists, without any membership check (see the counterexample). -/
theorem play_game_v2_turn2 (target : Word) (answers allGuesses : List Word)
    (table : List (Feedback × Word)) (opener : Word) (maxG : Nat)
    (h2 : 2 ≤ maxG) (hfb : compute_feedback opener target ≠ allGreen)
    (hcs : filter_candidates answers opener (compute_feedback opener target) ≠ []) :
    ∃ g2 rest n solved,
      play_game_v2 target answers allGuesses table opener maxG =
        .ok (n, (opener, compute_feedback opener target) ::
          (g2, compute_feedback g2 target) :: rest, solved) ∧
      ((∃ w, lookupFB table (compute_feedback opener target) = some w ∧
          w ∈ filter_candidates answers opener (compute_feedback opener target) ∧
          g2 = w) ∨
        ((lookupFB table (compute_feedback opener target) = none ∨
          ∃ w, lookupFB table (compute_feedback opener target) = some w ∧
            w ∉ filter_candidates answers opener (compute_feedback opener target)) ∧
          improved_guess
            (filter_candidates answers opener (compute_feedback opener target))
            (testedAdd [] opener) = some g2)) := by
  obtain ⟨k, hk⟩ : ∃ k, maxG = k + 2 := ⟨maxG - 2, by omega⟩
  subst hk
  unfold play_game_v2
  rw [show List.range' 1 (k + 2) = 1 :: 2 :: List.range' 3 k from rfl]
  have hsel1 : v2SelectGuess table opener 1 answers [] [] = some opener :=
    v2SelectGuess_one table opener answers [] []
  have hred1 : play_game_v2Go target allGuesses table opener (k + 2)
      (1 :: 2 :: List.range' 3 k) answers [] [] =
      (if compute_feedback opener target = allGreen then
        Except.ok (1, [] ++ [(opener, compute_feedback opener target)], true)
      else if filter_candidates answers opener (compute_feedback opener target) = [] then
        Except.ok (1, [] ++ [(opener, compute_feedback opener target)], false)
      else play_game_v2Go target allGuesses table opener (k + 2) (2 :: List.range' 3 k)
        (filter_candidates answers opener (compute_feedback opener target))
        ([] ++ [(opener, compute_feedback opener target)]) (testedAdd [] opener)) := by
    rw [play_game_v2Go, hsel1]
  rw [hred1, if_neg hfb, if_neg hcs]
  have hguess2 : ∃ g2,
      v2SelectGuess table opener 2
        (filter_candidates answers opener (compute_feedback opener target))
        ([] ++ [(opener, compute_feedback opener target)])
        (testedAdd [] opener) = some g2 ∧
      ((∃ w, lookupFB table (compute_feedback opener target) = some w ∧
          w ∈ filter_candidates answers opener (compute_feedback opener target) ∧
          g2 = w) ∨
        ((lookupFB table (compute_feedback opener target) = none ∨
          ∃ w, lookupFB table (compute_feedback opener target) = some w ∧
            w ∉ filter_candidates answers opener (compute_feedback opener target)) ∧
          improved_guess
            (filter_candidates answers opener (compute_feedback opener target))
            (testedAdd [] opener) = some g2)) := by
    rw [show (([] ++ [(opener, compute_feedback opener target)]) :
      List (Word × Feedback)) = [(opener, compute_feedback opener target)]
      from List.nil_append _]
    rw [v2SelectGuess_two]
    cases hlook : lookupFB table (compute_feedback opener target) with
    | some w =>
      rw [tableFallback_some]
      by_cases hwmem : w ∈ filter_candidates answers opener
          (compute_feedback opener target)
      · refine ⟨w, ?_, Or.inl ⟨w, rfl, hwmem, rfl⟩⟩
        rw [if_pos hwmem]
      · obtain ⟨g2, hg2, _⟩ := improved_guess_mem
          (filter_candidates answers opener (compute_feedback opener target))
          (testedAdd [] opener) hcs
        refine ⟨g2, ?_, Or.inr ⟨Or.inr ⟨w, rfl, hwmem⟩, hg2⟩⟩
        rw [if_neg hwmem]
        exact hg2
    | none =>
      rw [tableFallback_none]
      obtain ⟨g2, hg2, _⟩ := improved_guess_mem
        (filter_candidates answers opener (compute_feedback opener target))
        (testedAdd [] opener) hcs
      exact ⟨g2, hg2, Or.inr ⟨Or.inl rfl, hg2⟩⟩
  obtain ⟨g2, hsel2, hg2src⟩ := hguess2
  have hred2 : play_game_v2Go target allGuesses table opener (k + 2)
      (2 :: List.range' 3 k)
      (filter_candidates answers opener (compute_feedback opener target))
      ([] ++ [(opener, compute_feedback opener target)]) (testedAdd [] opener) =
      (if compute_feedback g2 target = allGreen then
        Except.ok (2, ([] ++ [(opener, compute_feedback opener target)]) ++
          [(g2, compute_feedback g2 target)], true)
      else if filter_candidates
          (filter_candidates answers opener (compute_feedback opener target)) g2
          (compute_feedback g2 target) = [] then
        Except.ok (2, ([] ++ [(opener, compute_feedback opener target)]) ++
          [(g2, compute_feedback g2 target)], false)
      else play_game_v2Go target allGuesses table opener (k + 2) (List.range' 3 k)
        (filter_candidates
          (filter_candidates answers opener (compute_feedback opener target)) g2
          (compute_feedback g2 target))
        (([] ++ [(opener, compute_feedback opener target)]) ++
          [(g2, compute_feedback g2 target)])
        (testedAdd (testedAdd [] opener) g2)) := by
    rw [play_game_v2Go, hsel2]
  rw [hred2]
  by_cases hwin2 : compute_feedback g2 target = allGreen
  · refine ⟨g2, [], 2, true, ?_, hg2src⟩
    rw [if_pos hwin2]
    simp
  · rw [if_neg hwin2]
    by_cases hempty2 : filter_candidates
        (filter_candidates answers opener (compute_feedback opener target)) g2
        (compute_feedback g2 target) = []
    · refine ⟨g2, [], 2, false, ?_, hg2src⟩
      rw [if_pos hempty2]
      simp
    · rw [if_neg hempty2]
      have hrec := play_game_v2Go_ok target allGuesses table opener (k + 2) k
        (filter_candidates
          (filter_candidates answers opener (compute_feedback opener target)) g2
          (compute_feedback g2 target))
        (([] ++ [(opener, compute_feedback opener target)]) ++
          [(g2, compute_feedback g2 target)])
        (testedAdd (testedAdd [] opener) g2) (by simp) hempty2
      obtain ⟨n, gs', solved, hgo⟩ := hrec
      refine ⟨g2, gs', n, solved, ?_, hg2src⟩
      simpa using hgo

/-- Counterexample to C8 as stated: in `final_simulation.simulate`, the
turn-2 table word is played even though it is not in the current candidate
set.  With answers `["bbbbb", "ccccc"]`, target `"bbbbb"` and the table
sending the all-gray pattern to `"zzzzz"`, the trace's second guess is
`"zzzzz"`, which is not a member of the filtered candidates. -/
theorem final_simulation_uses_illegal_table_word :
    play_game_final "bbbbb".toList ["bbbbb".toList, "ccccc".toList]
        [([0, 0, 0, 0, 0], "zzzzz".toList)] =
      .ok (3, [("raise".toList, [0, 0, 0, 0, 0]), ("zzzzz".toList, [0, 0, 0, 0, 0]),
        ("bbbbb".toList, [2, 2, 2, 2, 2])], true)
    ∧ "zzzzz".toList ∉ filter_candidates ["bbbbb".toList, "ccccc".toList]
        "raise".toList [0, 0, 0, 0, 0] := by
  constructor
  · rfl
  · decide

/-- Witness for C8 (amended): a table entry that is still a candidate is
played as the second guess by `play_game_v2`. -/
theorem play_game_v2_turn2_witness :
    ∃ g2 rest n solved,
      play_game_v2 "bbbbb".toList ["bbbbb".toList, "ccccc".toList] []
          [([0, 0, 0, 0, 0], "bbbbb".toList)] "raise".toList 6 =
        .ok (n, ("raise".toList,
            compute_feedback "raise".toList "bbbbb".toList) ::
          (g2, compute_feedback g2 "bbbbb".toList) :: rest, solved) ∧
      ((∃ w, lookupFB [([0, 0, 0, 0, 0], "bbbbb".toList)]
            (compute_feedback "raise".toList "bbbbb".toList) = some w ∧
          w ∈ filter_candidates ["bbbbb".toList, "ccccc".toList] "raise".toList
            (compute_feedback "raise".toList "bbbbb".toList) ∧
          g2 = w) ∨
        ((lookupFB [([0, 0, 0, 0, 0], "bbbbb".toList)]
            (compute_feedback "raise".toList "bbbbb".toList) = none ∨
          ∃ w, lookupFB [([0, 0, 0, 0, 0], "bbbbb".toList)]
              (compute_feedback "raise".toList "bbbbb".toList) = some w ∧
            w ∉ filter_candidates ["bbbbb".toList, "ccccc".toList] "raise".toList
              (compute_feedback "raise".toList "bbbbb".toList)) ∧
          improved_guess
            (filter_candidates ["bbbbb".toList, "ccccc".toList] "raise".toList
              (compute_feedback "raise".toList "bbbbb".toList))
            (testedAdd [] "raise".toList) = some g2)) :=
  play_game_v2_turn2 "bbbbb".toList ["bbbbb".toList, "ccccc".toList] []
    [([0, 0, 0, 0, 0], "bbbbb".toList)] "raise".toList 6 (by decide) (by decide)
    (by decide)

end WordleSolve
